import Mathlib

/-!
Verification of the market-lab backtest simulation core.

The development embeds `src/engine/evaluation/baseline_portfolio.py` and
`src/engine/evaluation/buyhold_portfolio.py` in Lean.  Money and price
amounts are rationals (the source uses IEEE floats; all the algorithmic
structure — clamping, fee arithmetic, iteration order — is preserved
exactly, only the number representation differs).  Dates are `(year,
month, day)` triples ordered lexicographically, matching the ordering of
parsed `Date` column values.  A price panel is a list of rows, each a
date together with an assignment of a price to every asset identifier;
asset identifiers are natural numbers standing for the column labels.
-/

/-- Calendar date as parsed from the panel's `Date` column. -/
structure Date where
  y : ℕ
  m : ℕ
  d : ℕ
deriving DecidableEq

/-- Lexicographic key of a date, used for all date comparisons. -/
def Date.key (a : Date) : ℕ ×ₗ (ℕ ×ₗ ℕ) := toLex (a.y, toLex (a.m, a.d))

/-- Strict date order (year, then month, then day). -/
def Date.lt (a b : Date) : Prop := Date.key a < Date.key b

/-- Weak date order. -/
def Date.le (a b : Date) : Prop := Date.key a ≤ Date.key b

instance (a b : Date) : Decidable (Date.lt a b) := by unfold Date.lt; infer_instance

instance (a b : Date) : Decidable (Date.le a b) := by unfold Date.le; infer_instance

/-- Boolean date comparison handed to the sorting routine. -/
def Date.leb (a b : Date) : Bool := decide (Date.le a b)

/-- Cost-model parameters of `Costs` in both simulator files
(`fee_bps`, `slippage_bps`, `fixed_per_trade`, with the source's
default values). -/
structure Costs where
  fee_bps : ℚ := 5
  slippage_bps : ℚ := 2
  fixed_per_trade : ℚ := 0
deriving DecidableEq

/-- `bps_to_rate` from the source: basis points to a fractional rate. -/
def bps_to_rate (bps : ℚ) : ℚ := bps / 10000

/-- Trade side marker (the `side` column of the ledger). -/
inductive Side where
  | SELL
  | BUY
deriving DecidableEq

/-- One ledger row, with exactly the fields the source appends to
`trade_rows`. -/
structure Trade where
  date : Date
  asset : ℕ
  side : Side
  qty : ℚ
  price : ℚ
  notional : ℚ
  fee_var : ℚ
  fee_fixed : ℚ
  fee_total : ℚ
deriving DecidableEq

/-- The mutable simulation state: the `cash` variable and the `qty`
dictionary (total map from asset identifier to held quantity). -/
structure PortfolioState where
  cash : ℚ
  qty : ℕ → ℚ

/-- `portfolio_value`: cash plus mark-to-market value of all holdings
at the given day's close prices. -/
def portfolioValue (assets : List ℕ) (prices : ℕ → ℚ) (st : PortfolioState) : ℚ :=
  st.cash + (assets.map (fun a => st.qty a * prices a)).sum

/-- The ledger row built by the SELL branch: execution price is the
close discounted by slippage, the liquidated quantity is the desired
quantity clamped to the held quantity, and fees are charged on the
executed notional plus the fixed per-trade charge. -/
def sellTrade (c : Costs) (dt : Date) (prices delta : ℕ → ℚ)
    (st : PortfolioState) (a : ℕ) : Trade :=
  let exec_price := prices a * (1 - bps_to_rate c.slippage_bps)
  let dq := min (|delta a| / exec_price) (st.qty a)
  let notional_exec := dq * exec_price
  let var_cost := notional_exec * bps_to_rate c.fee_bps
  ⟨dt, a, Side.SELL, dq, exec_price, notional_exec, var_cost, c.fixed_per_trade,
    var_cost + c.fixed_per_trade⟩

/-- State mutation of the SELL branch: `cash += notional_exec - total_cost`,
`qty[a] -= dq`. -/
def applySell (st : PortfolioState) (t : Trade) : PortfolioState :=
  ⟨st.cash + (t.notional - t.fee_total),
    Function.update st.qty t.asset (st.qty t.asset - t.qty)⟩

/-- The SELL branch of the rebalance loop for one asset (lines 78-104 of
`baseline_portfolio.py`): fires when the desired delta is negative; the
`notional <= 0` skip mirrors the dead `continue` of the source. -/
def sellStep (c : Costs) (dt : Date) (prices delta : ℕ → ℚ)
    (acc : PortfolioState × List Trade) (a : ℕ) : PortfolioState × List Trade :=
  if delta a < 0 then
    if |delta a| ≤ 0 then acc
    else (applySell acc.1 (sellTrade c dt prices delta acc.1 a),
      acc.2 ++ [sellTrade c dt prices delta acc.1 a])
  else acc

/-- Maximum affordable buy notional: `max(0, (cash - fixed_per_trade) /
(1 + fee_rate))`.  Fidelity caveat: rational division is total, so at
`fee_bps = -10000` (where `1 + fee_rate = 0`) this returns `0`, whereas
the source performs a pure-float division by `0.0` and dies with an
unhandled `ZeroDivisionError` the first time the BUY branch is reached.
Every theorem whose conclusion requires the program to run to
completion therefore carries a `fee_bps ≠ -10000` (or a non-negativity)
hypothesis excluding that single point. -/
def maxAffordable (c : Costs) (cash : ℚ) : ℚ :=
  max 0 ((cash - c.fixed_per_trade) / (1 + bps_to_rate c.fee_bps))

/-- The ledger row built by the BUY branch for an executed notional:
execution price is the close marked up by slippage and the purchased
quantity is `notional_exec / exec_price`. -/
def buyTrade (c : Costs) (dt : Date) (prices : ℕ → ℚ)
    (a : ℕ) (notional_exec : ℚ) : Trade :=
  let exec_price := prices a * (1 + bps_to_rate c.slippage_bps)
  let var_cost := notional_exec * bps_to_rate c.fee_bps
  ⟨dt, a, Side.BUY, notional_exec / exec_price, exec_price, notional_exec,
    var_cost, c.fixed_per_trade, var_cost + c.fixed_per_trade⟩

/-- State mutation of the BUY branch: `cash -= notional_exec + total_cost`,
`qty[a] += dq`. -/
def applyBuy (st : PortfolioState) (t : Trade) : PortfolioState :=
  ⟨st.cash - (t.notional + t.fee_total),
    Function.update st.qty t.asset (st.qty t.asset + t.qty)⟩

/-- The BUY branch of the rebalance loop for one asset (lines 106-135 of
`baseline_portfolio.py`): fires when the desired delta is positive, caps
the notional at affordability, and skips when the capped notional is not
positive.  The `notional <= 0` test mirrors the dead `continue` of the
source. -/
def buyStep (c : Costs) (dt : Date) (prices delta : ℕ → ℚ)
    (acc : PortfolioState × List Trade) (a : ℕ) : PortfolioState × List Trade :=
  if 0 < delta a then
    if delta a ≤ 0 then acc
    else
      let notional_exec := min (delta a) (maxAffordable c acc.1.cash)
      if notional_exec ≤ 0 then acc
      else (applyBuy acc.1 (buyTrade c dt prices a notional_exec),
        acc.2 ++ [buyTrade c dt prices a notional_exec])
  else acc

/-- The desired value change for one asset at a rebalance: equal-weight
target value (`pv * 1/n`) minus current holding value, with `pv` and the
holdings taken from the pre-rebalance state, as in the source where
`delta_val` is computed once before the trade loop. -/
def rebDelta (assets : List ℕ) (prices : ℕ → ℚ) (st : PortfolioState) (a : ℕ) : ℚ :=
  portfolioValue assets prices st * (1 / (assets.length : ℚ)) - st.qty a * prices a

/-- The `side == "SELL"` sweep over all assets. -/
def sellPass (c : Costs) (dt : Date) (prices delta : ℕ → ℚ) (assets : List ℕ)
    (acc : PortfolioState × List Trade) : PortfolioState × List Trade :=
  assets.foldl (sellStep c dt prices delta) acc

/-- The `side == "BUY"` sweep over all assets. -/
def buyPass (c : Costs) (dt : Date) (prices delta : ℕ → ℚ) (assets : List ℕ)
    (acc : PortfolioState × List Trade) : PortfolioState × List Trade :=
  assets.foldl (buyStep c dt prices delta) acc

/-- One rebalance event (lines 68-135 of `baseline_portfolio.py`):
compute the per-asset deltas from the pre-rebalance state, then run the
SELL sweep followed by the BUY sweep. -/
def rebalancePass (c : Costs) (dt : Date) (assets : List ℕ) (prices : ℕ → ℚ)
    (st : PortfolioState) (ledger : List Trade) : PortfolioState × List Trade :=
  buyPass c dt prices (rebDelta assets prices st) assets
    (sellPass c dt prices (rebDelta assets prices st) assets (st, ledger))

/-- One row of the equity curve output (`Date, equity, cash, qty_*, val_*`). -/
structure EquityRow where
  date : Date
  equity : ℚ
  cash : ℚ
  asset_qty : List ℚ
  asset_val : List ℚ
deriving DecidableEq

/-- The end-of-day valuation row appended for every simulated date. -/
def equityRow (assets : List ℕ) (day : Date × (ℕ → ℚ)) (st : PortfolioState) : EquityRow :=
  ⟨day.1, portfolioValue assets day.2 st, st.cash, assets.map st.qty,
    assets.map fun a => st.qty a * day.2 a⟩

/-- Helper of `first_trading_day_each_month`: keep each date whose
`(year, month)` group has not been seen earlier in the index. -/
def ftdmAux (seen : List (ℕ × ℕ)) : List Date → List Date
  | [] => []
  | dt :: rest =>
    if (dt.y, dt.m) ∈ seen then ftdmAux seen rest
    else dt :: ftdmAux ((dt.y, dt.m) :: seen) rest

/-- `first_trading_day_each_month`: the first index entry of every
`(year, month)` group, in index order. -/
def first_trading_day_each_month (idx : List Date) : List Date := ftdmAux [] idx

/-- The body of the daily loop of
`simulate_equal_weight_monthly_rebalance`: rebalance when the date is a
first trading day of its month, then append the end-of-day equity row. -/
def dayStep (c : Costs) (assets : List ℕ) (rdays : List Date)
    (acc : PortfolioState × List Trade × List EquityRow)
    (day : Date × (ℕ → ℚ)) : PortfolioState × List Trade × List EquityRow :=
  let res := if day.1 ∈ rdays then rebalancePass c day.1 assets day.2 acc.1 acc.2.1
    else (acc.1, acc.2.1)
  (res.1, res.2, acc.2.2 ++ [equityRow assets day res.1])

/-- `simulate_equal_weight_monthly_rebalance`: run the daily loop over
the whole panel starting from all-cash, returning the equity curve and
the trade ledger. -/
def simulate_equal_weight_monthly_rebalance (c : Costs) (initial_cash : ℚ)
    (assets : List ℕ) (panel : List (Date × (ℕ → ℚ))) :
    List EquityRow × List Trade :=
  let rdays := first_trading_day_each_month (panel.map Prod.fst)
  let res := panel.foldl (dayStep c assets rdays) (⟨initial_cash, fun _ => 0⟩, [], [])
  (res.2.2, res.2.1)

/-- The per-asset entry purchase of `simulate_buyhold_equal_weight`
(lines 76-103 of `buyhold_portfolio.py`): the target notional is always
`initial_cash * (1/n)` — the running cash only caps affordability. -/
def buyholdStep (c : Costs) (dt : Date) (initial_cash n : ℚ) (prices : ℕ → ℚ)
    (acc : PortfolioState × List Trade) (a : ℕ) : PortfolioState × List Trade :=
  let notional_exec := min (initial_cash * (1 / n)) (maxAffordable c acc.1.cash)
  if notional_exec ≤ 0 then acc
  else (applyBuy acc.1 (buyTrade c dt prices a notional_exec),
    acc.2 ++ [buyTrade c dt prices a notional_exec])

/-- `simulate_buyhold_equal_weight`: a single sequential entry sweep on
the first panel date, then a pure valuation loop over every date.  The
source indexes `close.index[0]` and so requires a non-empty panel; the
empty case is mapped to empty outputs and all claims about this
simulator are stated for non-empty panels. -/
def simulate_buyhold_equal_weight (c : Costs) (initial_cash : ℚ)
    (assets : List ℕ) (panel : List (Date × (ℕ → ℚ))) :
    List EquityRow × List Trade :=
  match panel with
  | [] => ([], [])
  | day0 :: _ =>
    let entry := assets.foldl (buyholdStep c day0.1 initial_cash (assets.length : ℚ) day0.2)
      (⟨initial_cash, fun _ => 0⟩, [])
    (panel.map fun day => equityRow assets day entry.1, entry.2)

/-- `load_panel_close`, restricted to the row ordering step it performs
on already-parsed rows: `df.sort_values("Date")` sorts the rows by date
and nothing is ever de-duplicated.  (The numeric coercion and NaN check
of the source concern the float parsing layer, which the rational
embedding has no analogue of.) -/
def load_panel_close (rows : List (Date × (ℕ → ℚ))) : List (Date × (ℕ → ℚ)) :=
  rows.mergeSort fun r s => Date.leb r.1 s.1

/-- Net cash flow of one ledger row: a SELL credits its notional minus
total fees, a BUY debits its notional plus total fees. -/
def tradeCashDelta (t : Trade) : ℚ :=
  if t.side = Side.SELL then t.notional - t.fee_total else -(t.notional + t.fee_total)

/-- Cash balance reconstructed from an initial balance and a ledger
segment: the simulators change `cash` only when appending a row, so this
is the cash balance immediately after the last trade of the segment. -/
def cashAfter (c0 : ℚ) (l : List Trade) : ℚ := c0 + (l.map tradeCashDelta).sum

/-- Quantity change of one ledger row for a given asset. -/
def tradeQtyDelta (a : ℕ) (t : Trade) : ℚ :=
  if t.asset = a then (if t.side = Side.SELL then -t.qty else t.qty) else 0

/-- Held quantity of an asset reconstructed from a ledger segment
(both simulators start from zero holdings). -/
def qtyAfter (a : ℕ) (l : List Trade) : ℚ := (l.map (tradeQtyDelta a)).sum

/-- Full cost of executing a desired buy delta in one trade, used to
state when the BUY sweep is not cash-constrained. -/
def buyCost (c : Costs) (dv : ℚ) : ℚ :=
  if 0 < dv then dv * (1 + bps_to_rate c.fee_bps) + c.fixed_per_trade else 0

/-- Ledger ordering relation: strictly later date, or same date with no
BUY-before-SELL inversion. -/
def ledgerOrd (t u : Trade) : Prop :=
  Date.lt t.date u.date ∨ (t.date = u.date ∧ (t.side = Side.SELL ∨ u.side = Side.BUY))

instance (t u : Trade) : Decidable (ledgerOrd t u) := by unfold ledgerOrd; infer_instance

/-- State part of the SELL branch, as a function of the state alone. -/
def sellStepS (c : Costs) (dt : Date) (prices delta : ℕ → ℚ)
    (st : PortfolioState) (a : ℕ) : PortfolioState :=
  (sellStep c dt prices delta (st, []) a).1

/-- Ledger rows appended by the SELL branch, as a function of the state alone. -/
def sellSeg (c : Costs) (dt : Date) (prices delta : ℕ → ℚ)
    (st : PortfolioState) (a : ℕ) : List Trade :=
  (sellStep c dt prices delta (st, []) a).2

/-- State part of the BUY branch, as a function of the state alone. -/
def buyStepS (c : Costs) (dt : Date) (prices delta : ℕ → ℚ)
    (st : PortfolioState) (a : ℕ) : PortfolioState :=
  (buyStep c dt prices delta (st, []) a).1

/-- Ledger rows appended by the BUY branch, as a function of the state alone. -/
def buySeg (c : Costs) (dt : Date) (prices delta : ℕ → ℚ)
    (st : PortfolioState) (a : ℕ) : List Trade :=
  (buyStep c dt prices delta (st, []) a).2

/-- The running state always equals the state reconstructed from the
initial cash and the ledger, because every cash or quantity mutation is
paired with exactly one appended ledger row. -/
def StateMatchesLedger (c0 : ℚ) (acc : PortfolioState × List Trade) : Prop :=
  acc.1.cash = cashAfter c0 acc.2 ∧ ∀ a, acc.1.qty a = qtyAfter a acc.2

/-- Run invariant for the no-shorting property: ledger correspondence,
non-negative current holdings, and non-negative reconstructed holdings
after every ledger prefix. -/
def InvQ (c0 : ℚ) (acc : PortfolioState × List Trade) : Prop :=
  StateMatchesLedger c0 acc ∧ (∀ a, 0 ≤ acc.1.qty a) ∧
    ∀ k a, 0 ≤ qtyAfter a (acc.2.take k)

/-- Run invariant for the cash non-negativity property: `InvQ` plus a
non-negative current balance and a non-negative reconstructed balance
after every ledger prefix. -/
def InvC (c0 : ℚ) (acc : PortfolioState × List Trade) : Prop :=
  InvQ c0 acc ∧ 0 ≤ acc.1.cash ∧ ∀ k, 0 ≤ cashAfter c0 (acc.2.take k)

/-- Concrete run refuting the unconditional cash invariant: two assets,
zero variable fees and slippage, a fixed fee of 10 per trade, initial
cash 100. The first rebalance buys both assets down to zero cash; on
the second rebalance date asset 0 has drifted to a small negative delta,
and the SELL of notional 5/2 credits 5/2 - 10 < 0, pushing cash to
-15/2. -/
def cexCosts : Costs := ⟨0, 0, 10⟩

/-- Two-day, two-asset panel used by the cash-negativity counterexample. -/
def cexPanel : List (Date × (ℕ → ℚ)) :=
  [(⟨2024, 1, 1⟩, fun _ => 1), (⟨2024, 2, 1⟩, fun a => if a = 0 then 7 / 10 else 1)]

/-- Input with a repeated date used to refute the de-duplication claim. -/
def dupRows : List (Date × (ℕ → ℚ)) :=
  [(⟨2024, 1, 2⟩, fun _ => 1), (⟨2024, 1, 2⟩, fun _ => 2)]

/-- Cost model with a 100% variable fee, used to exhibit a
cash-constrained BUY sweep. -/
def permCosts : Costs := ⟨10000, 0, 0⟩


/-- A fold preserves any invariant its step preserves. -/
theorem foldl_preserves {α β : Type*} {l : List α} {f : β → α → β} {I : β → Prop}
    (h : ∀ b a, a ∈ l → I b → I (f b a)) (b0 : β) (hI : I b0) : I (l.foldl f b0) := by
  induction l generalizing b0 with
  | nil => exact hI
  | cons a t ih =>
    exact ih (fun b x hx => h b x (List.mem_cons_of_mem a hx)) _
      (h b0 a (List.mem_cons_self a t) hI)

/-- Folding a commuting step is invariant under permutation of the input. -/
theorem foldl_perm_of_comm {α β : Type*} {f : β → α → β}
    (hc : ∀ b a₁ a₂, f (f b a₁) a₂ = f (f b a₂) a₁)
    {l₁ l₂ : List α} (hp : l₁.Perm l₂) : ∀ b, l₁.foldl f b = l₂.foldl f b := by
  induction hp with
  | nil => intro b; rfl
  | cons a _ ih => intro b; simp only [List.foldl_cons]; exact ih _
  | swap a₁ a₂ l => intro b; simp only [List.foldl_cons]; rw [hc]
  | trans _ _ ih₁ ih₂ => intro b; rw [ih₁, ih₂]





theorem sellStep_eq (c : Costs) (dt : Date) (prices delta : ℕ → ℚ)
    (acc : PortfolioState × List Trade) (a : ℕ) :
    sellStep c dt prices delta acc a =
      (sellStepS c dt prices delta acc.1 a, acc.2 ++ sellSeg c dt prices delta acc.1 a) := by
  simp only [sellStep, sellStepS, sellSeg]
  split_ifs <;> simp

theorem buyStep_eq (c : Costs) (dt : Date) (prices delta : ℕ → ℚ)
    (acc : PortfolioState × List Trade) (a : ℕ) :
    buyStep c dt prices delta acc a =
      (buyStepS c dt prices delta acc.1 a, acc.2 ++ buySeg c dt prices delta acc.1 a) := by
  simp only [buyStep, buyStepS, buySeg]
  split_ifs <;> simp

theorem sellStep_of_nonneg {delta : ℕ → ℚ} {a : ℕ} (h : ¬ delta a < 0)
    (c : Costs) (dt : Date) (prices : ℕ → ℚ) (acc : PortfolioState × List Trade) :
    sellStep c dt prices delta acc a = acc := by
  simp [sellStep, h]

theorem sellStep_of_neg {delta : ℕ → ℚ} {a : ℕ} (h : delta a < 0)
    (c : Costs) (dt : Date) (prices : ℕ → ℚ) (acc : PortfolioState × List Trade) :
    sellStep c dt prices delta acc a =
      (applySell acc.1 (sellTrade c dt prices delta acc.1 a),
        acc.2 ++ [sellTrade c dt prices delta acc.1 a]) := by
  have habs : ¬ |delta a| ≤ 0 := by
    simp only [not_le]
    exact abs_pos.mpr (ne_of_lt h)
  simp [sellStep, h, habs]

theorem buyStep_of_nonpos {delta : ℕ → ℚ} {a : ℕ} (h : ¬ 0 < delta a)
    (c : Costs) (dt : Date) (prices : ℕ → ℚ) (acc : PortfolioState × List Trade) :
    buyStep c dt prices delta acc a = acc := by
  simp [buyStep, h]

theorem buyStep_of_pos_skip {c : Costs} {delta : ℕ → ℚ} {a : ℕ}
    {acc : PortfolioState × List Trade} (h : 0 < delta a)
    (hskip : min (delta a) (maxAffordable c acc.1.cash) ≤ 0)
    (dt : Date) (prices : ℕ → ℚ) :
    buyStep c dt prices delta acc a = acc := by
  simp [buyStep, h, not_le.mpr h, hskip]

theorem buyStep_of_pos_exec {c : Costs} {delta : ℕ → ℚ} {a : ℕ}
    {acc : PortfolioState × List Trade} (h : 0 < delta a)
    (hexec : ¬ min (delta a) (maxAffordable c acc.1.cash) ≤ 0)
    (dt : Date) (prices : ℕ → ℚ) :
    buyStep c dt prices delta acc a =
      (applyBuy acc.1 (buyTrade c dt prices a (min (delta a) (maxAffordable c acc.1.cash))),
        acc.2 ++ [buyTrade c dt prices a (min (delta a) (maxAffordable c acc.1.cash))]) := by
  simp [buyStep, h, not_le.mpr h, hexec]

theorem buyholdStep_of_skip {c : Costs} {initial_cash n : ℚ}
    {acc : PortfolioState × List Trade}
    (hskip : min (initial_cash * (1 / n)) (maxAffordable c acc.1.cash) ≤ 0)
    (dt : Date) (prices : ℕ → ℚ) (a : ℕ) :
    buyholdStep c dt initial_cash n prices acc a = acc := by
  simp only [buyholdStep]
  exact if_pos hskip

theorem buyholdStep_of_exec {c : Costs} {initial_cash n : ℚ}
    {acc : PortfolioState × List Trade}
    (hexec : ¬ min (initial_cash * (1 / n)) (maxAffordable c acc.1.cash) ≤ 0)
    (dt : Date) (prices : ℕ → ℚ) (a : ℕ) :
    buyholdStep c dt initial_cash n prices acc a =
      (applyBuy acc.1 (buyTrade c dt prices a
          (min (initial_cash * (1 / n)) (maxAffordable c acc.1.cash))),
        acc.2 ++ [buyTrade c dt prices a
          (min (initial_cash * (1 / n)) (maxAffordable c acc.1.cash))]) := by
  simp only [buyholdStep]
  exact if_neg hexec

theorem cashAfter_append_one (c0 : ℚ) (l : List Trade) (t : Trade) :
    cashAfter c0 (l ++ [t]) = cashAfter c0 l + tradeCashDelta t := by
  simp [cashAfter, add_assoc]

theorem qtyAfter_append_one (a : ℕ) (l : List Trade) (t : Trade) :
    qtyAfter a (l ++ [t]) = qtyAfter a l + tradeQtyDelta a t := by
  simp [qtyAfter]

theorem take_concat_cases {α : Type*} (l : List α) (t : α) (k : ℕ) :
    (l ++ [t]).take k = l.take k ∨ (l ++ [t]).take k = l ++ [t] := by
  by_cases hk : k ≤ l.length
  · exact Or.inl (List.take_append_of_le_length hk)
  · refine Or.inr (List.take_of_length_le ?_)
    simp only [List.length_append, List.length_cons, List.length_nil]
    omega




theorem invQ_extend {c0 : ℚ} {acc : PortfolioState × List Trade}
    {t : Trade} {st' : PortfolioState}
    (hcash : st'.cash = acc.1.cash + tradeCashDelta t)
    (hqty : ∀ x, st'.qty x = acc.1.qty x + tradeQtyDelta x t)
    (hnn : ∀ x, 0 ≤ st'.qty x)
    (h : InvQ c0 acc) : InvQ c0 (st', acc.2 ++ [t]) := by
  obtain ⟨⟨hc, hq⟩, _, hpre⟩ := h
  have hq' : ∀ x, st'.qty x = qtyAfter x (acc.2 ++ [t]) := by
    intro x
    rw [hqty x, hq x, qtyAfter_append_one]
  refine ⟨⟨?_, hq'⟩, hnn, ?_⟩
  · rw [hcash, hc, cashAfter_append_one]
  · intro k x
    rcases take_concat_cases acc.2 t k with h1 | h1 <;> rw [h1]
    · exact hpre k x
    · rw [← hq' x]; exact hnn x

theorem invC_extend {c0 : ℚ} {acc : PortfolioState × List Trade}
    {t : Trade} {st' : PortfolioState}
    (hcash : st'.cash = acc.1.cash + tradeCashDelta t)
    (hqty : ∀ x, st'.qty x = acc.1.qty x + tradeQtyDelta x t)
    (hnn : ∀ x, 0 ≤ st'.qty x)
    (hcnn : 0 ≤ st'.cash)
    (h : InvC c0 acc) : InvC c0 (st', acc.2 ++ [t]) := by
  obtain ⟨hQ, _, hpre⟩ := h
  have hc' : st'.cash = cashAfter c0 (acc.2 ++ [t]) := by
    rw [hcash, hQ.1.1, cashAfter_append_one]
  refine ⟨invQ_extend hcash hqty hnn hQ, hcnn, ?_⟩
  intro k
  rcases take_concat_cases acc.2 t k with h1 | h1 <;> rw [h1]
  · exact hpre k
  · rw [← hc']; exact hcnn

theorem sellTrade_asset (c : Costs) (dt : Date) (prices delta : ℕ → ℚ)
    (st : PortfolioState) (a : ℕ) : (sellTrade c dt prices delta st a).asset = a := rfl

theorem sellTrade_side (c : Costs) (dt : Date) (prices delta : ℕ → ℚ)
    (st : PortfolioState) (a : ℕ) : (sellTrade c dt prices delta st a).side = Side.SELL := rfl

theorem sellTrade_qty (c : Costs) (dt : Date) (prices delta : ℕ → ℚ)
    (st : PortfolioState) (a : ℕ) : (sellTrade c dt prices delta st a).qty =
      min (|delta a| / (prices a * (1 - bps_to_rate c.slippage_bps))) (st.qty a) := rfl

theorem buyTrade_asset (c : Costs) (dt : Date) (prices : ℕ → ℚ) (a : ℕ) (ne : ℚ) :
    (buyTrade c dt prices a ne).asset = a := rfl

theorem buyTrade_side (c : Costs) (dt : Date) (prices : ℕ → ℚ) (a : ℕ) (ne : ℚ) :
    (buyTrade c dt prices a ne).side = Side.BUY := rfl

theorem buyTrade_qty (c : Costs) (dt : Date) (prices : ℕ → ℚ) (a : ℕ) (ne : ℚ) :
    (buyTrade c dt prices a ne).qty = ne / (prices a * (1 + bps_to_rate c.slippage_bps)) := rfl

theorem tradeCashDelta_sell {t : Trade} (h : t.side = Side.SELL) :
    tradeCashDelta t = t.notional - t.fee_total := by simp [tradeCashDelta, h]

theorem tradeCashDelta_buy {t : Trade} (h : t.side = Side.BUY) :
    tradeCashDelta t = -(t.notional + t.fee_total) := by simp [tradeCashDelta, h]

theorem tradeQtyDelta_self_sell {t : Trade} (h : t.side = Side.SELL) :
    tradeQtyDelta t.asset t = -t.qty := by simp [tradeQtyDelta, h]

theorem tradeQtyDelta_self_buy {t : Trade} (h : t.side = Side.BUY) :
    tradeQtyDelta t.asset t = t.qty := by simp [tradeQtyDelta, h]

theorem tradeQtyDelta_other {t : Trade} {x : ℕ} (h : t.asset ≠ x) :
    tradeQtyDelta x t = 0 := by simp [tradeQtyDelta, h]

theorem applySell_cash (st : PortfolioState) (t : Trade) :
    (applySell st t).cash = st.cash + (t.notional - t.fee_total) := rfl

theorem applySell_qty_asset (st : PortfolioState) (t : Trade) :
    (applySell st t).qty t.asset = st.qty t.asset - t.qty := by
  simp [applySell]

theorem applySell_qty_ne (st : PortfolioState) (t : Trade) {x : ℕ} (h : x ≠ t.asset) :
    (applySell st t).qty x = st.qty x := by
  simp [applySell, Function.update_noteq h]

theorem applyBuy_cash (st : PortfolioState) (t : Trade) :
    (applyBuy st t).cash = st.cash - (t.notional + t.fee_total) := rfl

theorem applyBuy_qty_asset (st : PortfolioState) (t : Trade) :
    (applyBuy st t).qty t.asset = st.qty t.asset + t.qty := by
  simp [applyBuy]

theorem applyBuy_qty_ne (st : PortfolioState) (t : Trade) {x : ℕ} (h : x ≠ t.asset) :
    (applyBuy st t).qty x = st.qty x := by
  simp [applyBuy, Function.update_noteq h]

theorem sellStep_invQ (c : Costs) (dt : Date) (prices delta : ℕ → ℚ) (a : ℕ)
    {c0 : ℚ} {acc : PortfolioState × List Trade}
    (h : InvQ c0 acc) : InvQ c0 (sellStep c dt prices delta acc a) := by
  by_cases hd : delta a < 0
  · rw [sellStep_of_neg hd]
    have hqty : ∀ x, (applySell acc.1 (sellTrade c dt prices delta acc.1 a)).qty x =
        acc.1.qty x + tradeQtyDelta x (sellTrade c dt prices delta acc.1 a) := by
      intro x
      rcases eq_or_ne x a with rfl | hx
      · simp [applySell, sellTrade, tradeQtyDelta, sub_eq_add_neg]
      · simp [applySell, sellTrade, tradeQtyDelta, Function.update_noteq hx, hx.symm]
    refine invQ_extend ?_ hqty ?_ h
    · rw [applySell_cash, tradeCashDelta_sell (sellTrade_side c dt prices delta acc.1 a)]
    · intro x
      rw [hqty x]
      rcases eq_or_ne x a with rfl | hx
      · have ht : tradeQtyDelta x (sellTrade c dt prices delta acc.1 x) =
            -(min (|delta x| / (prices x * (1 - bps_to_rate c.slippage_bps))) (acc.1.qty x)) := by
          simp [tradeQtyDelta, sellTrade]
        rw [ht, ← sub_eq_add_neg]
        exact sub_nonneg.mpr (min_le_right _ _)
      · rw [tradeQtyDelta_other (by rw [sellTrade_asset]; exact hx.symm), add_zero]
        exact h.2.1 x
  · rw [sellStep_of_nonneg hd]
    exact h

theorem buyStep_invQ (c : Costs) (dt : Date) (prices delta : ℕ → ℚ) (a : ℕ)
    (hp : 0 < prices a) (hs : 0 ≤ c.slippage_bps)
    {c0 : ℚ} {acc : PortfolioState × List Trade}
    (h : InvQ c0 acc) : InvQ c0 (buyStep c dt prices delta acc a) := by
  by_cases hd : 0 < delta a
  · by_cases hskip : min (delta a) (maxAffordable c acc.1.cash) ≤ 0
    · rw [buyStep_of_pos_skip hd hskip]; exact h
    · rw [buyStep_of_pos_exec hd hskip]
      set ne := min (delta a) (maxAffordable c acc.1.cash) with hne
      have hep : 0 < prices a * (1 + bps_to_rate c.slippage_bps) := by
        apply mul_pos hp
        have h0 : 0 ≤ bps_to_rate c.slippage_bps := by
          unfold bps_to_rate; positivity
        linarith
      have hdq : 0 ≤ (buyTrade c dt prices a ne).qty := by
        rw [buyTrade_qty]
        exact div_nonneg (le_of_lt (not_le.mp hskip)) (le_of_lt hep)
      have hqty : ∀ x, (applyBuy acc.1 (buyTrade c dt prices a ne)).qty x =
          acc.1.qty x + tradeQtyDelta x (buyTrade c dt prices a ne) := by
        intro x
        rcases eq_or_ne x a with rfl | hx
        · simp [applyBuy, buyTrade, tradeQtyDelta]
        · simp [applyBuy, buyTrade, tradeQtyDelta, Function.update_noteq hx, hx.symm]
      refine invQ_extend ?_ hqty ?_ h
      · rw [applyBuy_cash, tradeCashDelta_buy (buyTrade_side c dt prices a ne), sub_eq_add_neg]
      · intro x
        rw [hqty x]
        rcases eq_or_ne x a with rfl | hx
        · have ht : tradeQtyDelta x (buyTrade c dt prices x ne) = (buyTrade c dt prices x ne).qty := by
            simp [tradeQtyDelta, buyTrade]
          rw [ht]
          exact add_nonneg (h.2.1 x) hdq
        · rw [tradeQtyDelta_other (by rw [buyTrade_asset]; exact hx.symm), add_zero]
          exact h.2.1 x
  · rw [buyStep_of_nonpos hd]
    exact h

theorem sellTrade_notional (c : Costs) (dt : Date) (prices delta : ℕ → ℚ)
    (st : PortfolioState) (a : ℕ) : (sellTrade c dt prices delta st a).notional =
      min (|delta a| / (prices a * (1 - bps_to_rate c.slippage_bps))) (st.qty a) *
        (prices a * (1 - bps_to_rate c.slippage_bps)) := rfl

theorem sellTrade_fee_total (c : Costs) (dt : Date) (prices delta : ℕ → ℚ)
    (st : PortfolioState) (a : ℕ) : (sellTrade c dt prices delta st a).fee_total =
      (sellTrade c dt prices delta st a).notional * bps_to_rate c.fee_bps +
        c.fixed_per_trade := rfl

theorem buyTrade_notional (c : Costs) (dt : Date) (prices : ℕ → ℚ) (a : ℕ) (ne : ℚ) :
    (buyTrade c dt prices a ne).notional = ne := rfl

theorem buyTrade_fee_total (c : Costs) (dt : Date) (prices : ℕ → ℚ) (a : ℕ) (ne : ℚ) :
    (buyTrade c dt prices a ne).fee_total =
      ne * bps_to_rate c.fee_bps + c.fixed_per_trade := rfl

theorem invC_of_invQ_extend {c0 : ℚ} {acc : PortfolioState × List Trade}
    {t : Trade} {st' : PortfolioState}
    (hQ : InvQ c0 (st', acc.2 ++ [t])) (hcnn : 0 ≤ st'.cash)
    (h : InvC c0 acc) : InvC c0 (st', acc.2 ++ [t]) := by
  refine ⟨hQ, hcnn, ?_⟩
  intro k
  rcases take_concat_cases acc.2 t k with h1 | h1 <;> rw [h1]
  · exact h.2.2 k
  · rw [← hQ.1.1]; exact hcnn

/-- A SELL never receives negative proceeds: the executed notional of a
sell trade against non-negative holdings is non-negative (the clamp and
the sign of the execution price cooperate in every case). -/
theorem sellTrade_notional_nonneg (c : Costs) (dt : Date) (prices delta : ℕ → ℚ)
    {st : PortfolioState} (hq : ∀ x, 0 ≤ st.qty x) (a : ℕ) :
    0 ≤ (sellTrade c dt prices delta st a).notional := by
  rw [sellTrade_notional]
  set ep := prices a * (1 - bps_to_rate c.slippage_bps) with hep
  rcases lt_trichotomy ep 0 with h0 | h0 | h0
  · have hdiv : |delta a| / ep ≤ 0 :=
      div_nonpos_iff.mpr (Or.inl ⟨abs_nonneg _, le_of_lt h0⟩)
    rw [min_eq_left (le_trans hdiv (hq a)), div_mul_cancel₀ _ (ne_of_lt h0)]
    exact abs_nonneg _
  · rw [h0, mul_zero]
  · refine mul_nonneg (le_min (div_nonneg (abs_nonneg _) (le_of_lt h0)) (hq a)) (le_of_lt h0)

theorem sellStep_invC (c : Costs) (dt : Date) (prices delta : ℕ → ℚ) (a : ℕ)
    (hfix : c.fixed_per_trade = 0) (hfee0 : 0 ≤ c.fee_bps) (hfee1 : c.fee_bps ≤ 10000)
    {c0 : ℚ} {acc : PortfolioState × List Trade}
    (h : InvC c0 acc) : InvC c0 (sellStep c dt prices delta acc a) := by
  by_cases hd : delta a < 0
  · have hQ : InvQ c0 (sellStep c dt prices delta acc a) :=
      sellStep_invQ c dt prices delta a h.1
    rw [sellStep_of_neg hd] at hQ ⊢
    refine invC_of_invQ_extend hQ ?_ h
    rw [applySell_cash, sellTrade_fee_total]
    have hnn : 0 ≤ (sellTrade c dt prices delta acc.1 a).notional :=
      sellTrade_notional_nonneg c dt prices delta h.1.2.1 a
    have hr1 : bps_to_rate c.fee_bps ≤ 1 := by
      unfold bps_to_rate; linarith
    have hkeep : 0 ≤ (sellTrade c dt prices delta acc.1 a).notional -
        (sellTrade c dt prices delta acc.1 a).notional * bps_to_rate c.fee_bps := by
      nlinarith [mul_nonneg hnn (sub_nonneg.mpr hr1)]
    have hc := h.2.1
    rw [hfix]
    linarith
  · rw [sellStep_of_nonneg hd]
    exact h

theorem buyStep_invC (c : Costs) (dt : Date) (prices delta : ℕ → ℚ) (a : ℕ)
    (hp : 0 < prices a) (hs : 0 ≤ c.slippage_bps) (hfee0 : 0 ≤ c.fee_bps)
    {c0 : ℚ} {acc : PortfolioState × List Trade}
    (h : InvC c0 acc) : InvC c0 (buyStep c dt prices delta acc a) := by
  by_cases hd : 0 < delta a
  · by_cases hskip : min (delta a) (maxAffordable c acc.1.cash) ≤ 0
    · rw [buyStep_of_pos_skip hd hskip]; exact h
    · have hQ : InvQ c0 (buyStep c dt prices delta acc a) :=
        buyStep_invQ c dt prices delta a hp hs h.1
      rw [buyStep_of_pos_exec hd hskip] at hQ ⊢
      refine invC_of_invQ_extend hQ ?_ h
      set ne := min (delta a) (maxAffordable c acc.1.cash) with hne
      have hr : 0 ≤ bps_to_rate c.fee_bps := by
        unfold bps_to_rate; positivity
      have h1r : 0 < 1 + bps_to_rate c.fee_bps := by linarith
      have hpos : 0 < ne := not_le.mp hskip
      have hleX : ne ≤ (acc.1.cash - c.fixed_per_trade) / (1 + bps_to_rate c.fee_bps) := by
        have h1 : ne ≤ maxAffordable c acc.1.cash := min_le_right _ _
        unfold maxAffordable at h1
        rcases le_max_iff.mp h1 with h2 | h2
        · exact absurd h2 (not_le.mpr hpos)
        · exact h2
      have hmul : ne * (1 + bps_to_rate c.fee_bps) ≤ acc.1.cash - c.fixed_per_trade :=
        (le_div_iff₀ h1r).mp hleX
      rw [applyBuy_cash, buyTrade_notional, buyTrade_fee_total]
      nlinarith
  · rw [buyStep_of_nonpos hd]
    exact h

theorem sellPass_invQ (c : Costs) (dt : Date) (prices delta : ℕ → ℚ) (assets : List ℕ)
    {c0 : ℚ} {acc : PortfolioState × List Trade} (h : InvQ c0 acc) :
    InvQ c0 (sellPass c dt prices delta assets acc) :=
  foldl_preserves (fun b a _ hb => sellStep_invQ c dt prices delta a hb) acc h

theorem buyPass_invQ (c : Costs) (dt : Date) (prices delta : ℕ → ℚ) (assets : List ℕ)
    (hp : ∀ a ∈ assets, 0 < prices a) (hs : 0 ≤ c.slippage_bps)
    {c0 : ℚ} {acc : PortfolioState × List Trade} (h : InvQ c0 acc) :
    InvQ c0 (buyPass c dt prices delta assets acc) :=
  foldl_preserves (fun b a ha hb => buyStep_invQ c dt prices delta a (hp a ha) hs hb) acc h

theorem rebalancePass_invQ (c : Costs) (dt : Date) (assets : List ℕ) (prices : ℕ → ℚ)
    (hp : ∀ a ∈ assets, 0 < prices a) (hs : 0 ≤ c.slippage_bps)
    {c0 : ℚ} {st : PortfolioState} {ledger : List Trade} (h : InvQ c0 (st, ledger)) :
    InvQ c0 (rebalancePass c dt assets prices st ledger) := by
  unfold rebalancePass
  exact buyPass_invQ c dt prices _ assets hp hs
    (sellPass_invQ c dt prices _ assets h)

theorem sellPass_invC (c : Costs) (dt : Date) (prices delta : ℕ → ℚ) (assets : List ℕ)
    (hfix : c.fixed_per_trade = 0) (hfee0 : 0 ≤ c.fee_bps) (hfee1 : c.fee_bps ≤ 10000)
    {c0 : ℚ} {acc : PortfolioState × List Trade} (h : InvC c0 acc) :
    InvC c0 (sellPass c dt prices delta assets acc) :=
  foldl_preserves (fun b a _ hb => sellStep_invC c dt prices delta a hfix hfee0 hfee1 hb) acc h

theorem buyPass_invC (c : Costs) (dt : Date) (prices delta : ℕ → ℚ) (assets : List ℕ)
    (hp : ∀ a ∈ assets, 0 < prices a) (hs : 0 ≤ c.slippage_bps) (hfee0 : 0 ≤ c.fee_bps)
    {c0 : ℚ} {acc : PortfolioState × List Trade} (h : InvC c0 acc) :
    InvC c0 (buyPass c dt prices delta assets acc) :=
  foldl_preserves (fun b a ha hb => buyStep_invC c dt prices delta a (hp a ha) hs hfee0 hb) acc h

theorem rebalancePass_invC (c : Costs) (dt : Date) (assets : List ℕ) (prices : ℕ → ℚ)
    (hp : ∀ a ∈ assets, 0 < prices a) (hs : 0 ≤ c.slippage_bps)
    (hfix : c.fixed_per_trade = 0) (hfee0 : 0 ≤ c.fee_bps) (hfee1 : c.fee_bps ≤ 10000)
    {c0 : ℚ} {st : PortfolioState} {ledger : List Trade} (h : InvC c0 (st, ledger)) :
    InvC c0 (rebalancePass c dt assets prices st ledger) := by
  unfold rebalancePass
  exact buyPass_invC c dt prices _ assets hp hs hfee0
    (sellPass_invC c dt prices _ assets hfix hfee0 hfee1 h)

theorem invQ_init (c0 : ℚ) : InvQ c0 (⟨c0, fun _ => 0⟩, ([] : List Trade)) := by
  refine ⟨⟨by simp [cashAfter], fun a => by simp [qtyAfter]⟩, fun a => le_refl 0, ?_⟩
  intro k a
  simp [qtyAfter]

theorem invC_init {c0 : ℚ} (h : 0 ≤ c0) : InvC c0 (⟨c0, fun _ => 0⟩, ([] : List Trade)) := by
  refine ⟨invQ_init c0, h, ?_⟩
  intro k
  simpa [cashAfter] using h

theorem dayStep_inv {P : PortfolioState × List Trade → Prop}
    (c : Costs) (assets : List ℕ) (rdays : List Date)
    (acc : PortfolioState × List Trade × List EquityRow) (day : Date × (ℕ → ℚ))
    (hreb : ∀ (st : PortfolioState) (ledger : List Trade),
      P (st, ledger) → P (rebalancePass c day.1 assets day.2 st ledger))
    (h : P (acc.1, acc.2.1)) :
    P ((dayStep c assets rdays acc day).1, (dayStep c assets rdays acc day).2.1) := by
  unfold dayStep
  by_cases hmem : day.1 ∈ rdays
  · simp only [if_pos hmem]
    rw [Prod.mk.eta]
    exact hreb acc.1 acc.2.1 h
  · simp only [if_neg hmem]
    exact h

theorem simulate_invQ (c : Costs) (initial_cash : ℚ) (assets : List ℕ)
    (panel : List (Date × (ℕ → ℚ))) (hs : 0 ≤ c.slippage_bps)
    (hp : ∀ day ∈ panel, ∀ a ∈ assets, 0 < day.2 a) :
    InvQ initial_cash
      (((panel.foldl (dayStep c assets (first_trading_day_each_month (panel.map Prod.fst)))
          (⟨initial_cash, fun _ => 0⟩, [], [])).1),
        ((panel.foldl (dayStep c assets (first_trading_day_each_month (panel.map Prod.fst)))
          (⟨initial_cash, fun _ => 0⟩, [], [])).2.1)) := by
  apply @foldl_preserves _ _ _ _
    (fun acc : PortfolioState × List Trade × List EquityRow => InvQ initial_cash (acc.1, acc.2.1))
  · intro b day hday hb
    exact dayStep_inv c assets _ b day
      (fun st ledger hP =>
        rebalancePass_invQ c day.1 assets day.2 (fun a ha => hp day hday a ha) hs hP)
      hb
  · exact invQ_init initial_cash

theorem simulate_invC (c : Costs) {initial_cash : ℚ} (assets : List ℕ)
    (panel : List (Date × (ℕ → ℚ))) (hs : 0 ≤ c.slippage_bps)
    (hfix : c.fixed_per_trade = 0) (hfee0 : 0 ≤ c.fee_bps) (hfee1 : c.fee_bps ≤ 10000)
    (hic : 0 ≤ initial_cash)
    (hp : ∀ day ∈ panel, ∀ a ∈ assets, 0 < day.2 a) :
    InvC initial_cash
      (((panel.foldl (dayStep c assets (first_trading_day_each_month (panel.map Prod.fst)))
          (⟨initial_cash, fun _ => 0⟩, [], [])).1),
        ((panel.foldl (dayStep c assets (first_trading_day_each_month (panel.map Prod.fst)))
          (⟨initial_cash, fun _ => 0⟩, [], [])).2.1)) := by
  apply @foldl_preserves _ _ _ _
    (fun acc : PortfolioState × List Trade × List EquityRow => InvC initial_cash (acc.1, acc.2.1))
  · intro b day hday hb
    exact dayStep_inv c assets _ b day
      (fun st ledger hP =>
        rebalancePass_invC c day.1 assets day.2 (fun a ha => hp day hday a ha) hs hfix hfee0 hfee1 hP)
      hb
  · exact invC_init hic

theorem simulate_trades_eq (c : Costs) (initial_cash : ℚ) (assets : List ℕ)
    (panel : List (Date × (ℕ → ℚ))) :
    (simulate_equal_weight_monthly_rebalance c initial_cash assets panel).2 =
      (panel.foldl (dayStep c assets (first_trading_day_each_month (panel.map Prod.fst)))
        (⟨initial_cash, fun _ => 0⟩, [], [])).2.1 := rfl

/-- C9: in every run of the periodic equal-weight simulator over a
strictly positive price panel with non-negative slippage, the holding
quantity of every asset is non-negative after every executed trade —
the ledger-reconstructed holdings after every ledger prefix are
non-negative, so the SELL clamp never creates a short position. -/
theorem holdings_nonneg_after_every_trade (c : Costs) (initial_cash : ℚ)
    (assets : List ℕ) (panel : List (Date × (ℕ → ℚ)))
    (hs : 0 ≤ c.slippage_bps)
    (hp : ∀ day ∈ panel, ∀ a ∈ assets, 0 < day.2 a) :
    ∀ k a, 0 ≤ qtyAfter a
      (((simulate_equal_weight_monthly_rebalance c initial_cash assets panel).2).take k) := by
  intro k a
  rw [simulate_trades_eq]
  exact (simulate_invQ c initial_cash assets panel hs hp).2.2 k a

/-- C9 (witness): the no-shorting theorem applied to a one-asset,
one-day run with the default cost model. -/
theorem holdings_nonneg_after_every_trade_witness :
    0 ≤ qtyAfter 0
      (((simulate_equal_weight_monthly_rebalance ⟨5, 2, 0⟩ 1000 [0]
        [(⟨2024, 1, 2⟩, fun _ => 1)]).2).take 1) :=
  holdings_nonneg_after_every_trade ⟨5, 2, 0⟩ 1000 [0] [(⟨2024, 1, 2⟩, fun _ => 1)]
    (by norm_num)
    (by
      intro day hday a ha
      rw [List.mem_singleton] at hday
      subst hday
      norm_num) 1 0



/-- C1 (counterexample): with the non-negative cost parameters
`cexCosts` (fixed fee 10), strictly positive prices and non-negative
initial cash 100, the cash balance immediately after the third executed
trade (a SELL) is negative, refuting the claim that cash stays
non-negative after every trade for every non-negative cost model. -/
theorem fixed_fee_sell_drives_cash_negative :
    cashAfter 100 (((simulate_equal_weight_monthly_rebalance cexCosts 100 [0, 1]
      cexPanel).2).take 3) < 0 := by
  have h52 : |(5 : ℚ) / 2| = 5 / 2 := by norm_num
  have hside : Side.BUY ≠ Side.SELL := by decide
  norm_num [cexCosts, cexPanel, simulate_equal_weight_monthly_rebalance, dayStep,
    rebalancePass, buyPass, sellPass, buyStep, sellStep, buyTrade, sellTrade,
    applyBuy, applySell, maxAffordable, rebDelta, portfolioValue, equityRow,
    first_trading_day_each_month, ftdmAux, bps_to_rate, cashAfter, tradeCashDelta,
    Function.update, min_def, max_def, h52, hside]

/-- C1 (amended): the cash balance is non-negative after every executed
trade provided the fixed per-trade fee is zero and the variable fee rate
is at most 1 (fee_bps at most 10000); the reconstructed balance after
every ledger prefix is non-negative. With a positive fixed fee a SELL
whose proceeds are below the fee can push cash negative. -/
theorem cash_nonneg_after_every_trade_of_zero_fixed_fee (c : Costs)
    (initial_cash : ℚ) (assets : List ℕ) (panel : List (Date × (ℕ → ℚ)))
    (hfix : c.fixed_per_trade = 0) (hfee0 : 0 ≤ c.fee_bps) (hfee1 : c.fee_bps ≤ 10000)
    (hs : 0 ≤ c.slippage_bps) (hic : 0 ≤ initial_cash)
    (hp : ∀ day ∈ panel, ∀ a ∈ assets, 0 < day.2 a) :
    ∀ k, 0 ≤ cashAfter initial_cash
      (((simulate_equal_weight_monthly_rebalance c initial_cash assets panel).2).take k) := by
  intro k
  rw [simulate_trades_eq]
  exact (simulate_invC c assets panel hs hfix hfee0 hfee1 hic hp).2.2 k

/-- C1 (witness): the amended cash invariant applied to a one-asset,
one-day run with variable fees but no fixed fee. -/
theorem cash_nonneg_after_every_trade_of_zero_fixed_fee_witness :
    0 ≤ cashAfter 1000
      (((simulate_equal_weight_monthly_rebalance ⟨5, 2, 0⟩ 1000 [0]
        [(⟨2024, 1, 2⟩, fun _ => 1)]).2).take 1) :=
  cash_nonneg_after_every_trade_of_zero_fixed_fee ⟨5, 2, 0⟩ 1000 [0]
    [(⟨2024, 1, 2⟩, fun _ => 1)] rfl (by norm_num) (by norm_num) (by norm_num)
    (by norm_num)
    (by
      intro day hday a ha
      rw [List.mem_singleton] at hday
      subst hday
      norm_num) 1

theorem Date.leb_trans : ∀ a b c : Date, Date.leb a b = true → Date.leb b c = true →
    Date.leb a c = true := by
  intro a b c hab hbc
  exact decide_eq_true (le_trans (of_decide_eq_true hab) (of_decide_eq_true hbc))

theorem Date.leb_total : ∀ a b : Date, (Date.leb a b || Date.leb b a) = true := by
  intro a b
  rcases le_total (Date.key a) (Date.key b) with h | h
  · exact Bool.or_eq_true_iff.mpr (Or.inl (decide_eq_true h))
  · exact Bool.or_eq_true_iff.mpr (Or.inr (decide_eq_true h))

/-- C4 (amended): the loader sorts rows into non-decreasing date order
and returns a permutation of the input; duplicated dates are retained,
not dropped — there is no de-duplication step. -/
theorem load_panel_close_sorts_but_keeps_duplicates (rows : List (Date × (ℕ → ℚ))) :
    ((load_panel_close rows).map Prod.fst).Pairwise Date.le ∧
      (load_panel_close rows).Perm rows := by
  constructor
  · rw [List.pairwise_map]
    have h := @List.sorted_mergeSort (Date × (ℕ → ℚ))
      (fun r s => Date.leb r.1 s.1)
      (fun a b c hab hbc => Date.leb_trans a.1 b.1 c.1 hab hbc)
      (fun a b => Date.leb_total a.1 b.1) rows
    exact h.imp fun hab => of_decide_eq_true hab
  · exact List.mergeSort_perm rows _


/-- C4 (counterexample): on an input with a repeated date the loader
returns both rows, so the resulting date index is not strictly
increasing — nothing is de-duplicated. -/
theorem loader_keeps_duplicate_dates :
    ((load_panel_close dupRows).map Prod.fst) = [⟨2024, 1, 2⟩, ⟨2024, 1, 2⟩] ∧
      ¬ ((load_panel_close dupRows).map Prod.fst).Pairwise Date.lt := by
  have heval : ((load_panel_close dupRows).map Prod.fst) = [⟨2024, 1, 2⟩, ⟨2024, 1, 2⟩] := by
    simp [load_panel_close, dupRows, List.mergeSort, List.merge,
      show Date.leb ⟨2024, 1, 2⟩ ⟨2024, 1, 2⟩ = true from by decide]
  refine ⟨heval, ?_⟩
  rw [heval]
  intro h
  have hlt : Date.lt ⟨2024, 1, 2⟩ ⟨2024, 1, 2⟩ :=
    (List.pairwise_cons.mp h).1 _ (List.mem_singleton_self _)
  exact absurd hlt (by decide)

/-- Cash left after a BUY execution against the affordability cap: the
cap solves the fee equation exactly, so the post-trade balance is
non-negative whatever the prior balance was. -/
theorem buyExec_cash_nonneg (c : Costs) (hfee : 0 ≤ c.fee_bps) {cash dv : ℚ}
    (hpos : 0 < min dv (maxAffordable c cash)) :
    0 ≤ cash - (min dv (maxAffordable c cash) +
      (min dv (maxAffordable c cash) * bps_to_rate c.fee_bps + c.fixed_per_trade)) := by
  set ne := min dv (maxAffordable c cash) with hne
  have hr : 0 ≤ bps_to_rate c.fee_bps := by unfold bps_to_rate; positivity
  have h1r : 0 < 1 + bps_to_rate c.fee_bps := by linarith
  have hleX : ne ≤ (cash - c.fixed_per_trade) / (1 + bps_to_rate c.fee_bps) := by
    have h1 : ne ≤ maxAffordable c cash := min_le_right _ _
    unfold maxAffordable at h1
    rcases le_max_iff.mp h1 with h2 | h2
    · exact absurd h2 (not_le.mpr hpos)
    · exact h2
  have hmul : ne * (1 + bps_to_rate c.fee_bps) ≤ cash - c.fixed_per_trade :=
    (le_div_iff₀ h1r).mp hleX
  nlinarith

/-- C5: for a non-negative fee rate, in both BUY implementations the
executed notional is exactly `min(desired, max(0, (cash -
fixed_per_trade) / (1 + fee_rate)))`: when that value is non-positive
the step is a no-op, and when it is positive the appended ledger row
carries it as its notional and the debited balance stays non-negative
regardless of the prior balance. -/
theorem buy_branch_cap_and_cash (c : Costs) (hfee : 0 ≤ c.fee_bps) :
    (∀ (dt : Date) (prices delta : ℕ → ℚ) (acc : PortfolioState × List Trade) (a : ℕ),
      0 < delta a →
      (min (delta a) (maxAffordable c acc.1.cash) ≤ 0 →
        buyStep c dt prices delta acc a = acc) ∧
      (0 < min (delta a) (maxAffordable c acc.1.cash) →
        (buyStep c dt prices delta acc a).2 =
          acc.2 ++ [buyTrade c dt prices a (min (delta a) (maxAffordable c acc.1.cash))] ∧
        0 ≤ (buyStep c dt prices delta acc a).1.cash)) ∧
    (∀ (dt : Date) (initial_cash n : ℚ) (prices : ℕ → ℚ)
        (acc : PortfolioState × List Trade) (a : ℕ),
      (min (initial_cash * (1 / n)) (maxAffordable c acc.1.cash) ≤ 0 →
        buyholdStep c dt initial_cash n prices acc a = acc) ∧
      (0 < min (initial_cash * (1 / n)) (maxAffordable c acc.1.cash) →
        (buyholdStep c dt initial_cash n prices acc a).2 =
          acc.2 ++ [buyTrade c dt prices a
            (min (initial_cash * (1 / n)) (maxAffordable c acc.1.cash))] ∧
        0 ≤ (buyholdStep c dt initial_cash n prices acc a).1.cash)) := by
  constructor
  · intro dt prices delta acc a hd
    constructor
    · intro hskip
      exact buyStep_of_pos_skip hd hskip dt prices
    · intro hpos
      rw [buyStep_of_pos_exec hd (not_le.mpr hpos)]
      refine ⟨rfl, ?_⟩
      rw [applyBuy_cash, buyTrade_notional, buyTrade_fee_total]
      exact buyExec_cash_nonneg c hfee hpos
  · intro dt initial_cash n prices acc a
    constructor
    · intro hskip
      exact buyholdStep_of_skip hskip dt prices a
    · intro hpos
      rw [buyholdStep_of_exec (not_le.mpr hpos) dt prices a]
      refine ⟨rfl, ?_⟩
      rw [applyBuy_cash, buyTrade_notional, buyTrade_fee_total]
      exact buyExec_cash_nonneg c hfee hpos

/-- C5 (witness): the BUY cap at a concrete state — desired notional 50
with cash 100 under the default cost model executes in full and leaves
a non-negative balance. -/
theorem buy_branch_cap_and_cash_witness :
    (buyStep ⟨5, 2, 0⟩ ⟨2024, 1, 2⟩ (fun _ => 1) (fun _ => 50)
        (⟨100, fun _ => 0⟩, []) 0).2 =
      [] ++ [buyTrade ⟨5, 2, 0⟩ ⟨2024, 1, 2⟩ (fun _ => 1) 0
        (min 50 (maxAffordable ⟨5, 2, 0⟩ 100))] ∧
    0 ≤ (buyStep ⟨5, 2, 0⟩ ⟨2024, 1, 2⟩ (fun _ => 1) (fun _ => 50)
        (⟨100, fun _ => 0⟩, []) 0).1.cash :=
  ((buy_branch_cap_and_cash ⟨5, 2, 0⟩ (by norm_num)).1 ⟨2024, 1, 2⟩ (fun _ => 1)
    (fun _ => 50) (⟨100, fun _ => 0⟩, []) 0 (by norm_num)).2
    (by norm_num [maxAffordable, bps_to_rate, min_def, max_def])

/-- C3 (counterexample): in the SELL branch at a state holding zero of
the asset with desired delta -1 and a fixed fee of 1, the clamped
quantity is zero yet a ledger row (with qty 0) is appended and the cash
balance drops by the fixed fee — refuting both the no-emission and the
no-zero-quantity-row parts of the claim at a concrete input. -/
theorem zero_clamped_sell_appends_row_and_charges_fee :
    ((sellStep ⟨0, 0, 1⟩ ⟨2024, 1, 2⟩ (fun _ => 1) (fun _ => -1)
        (⟨0, fun _ => 0⟩, []) 0).2).map Trade.qty = [0] ∧
      (sellStep ⟨0, 0, 1⟩ ⟨2024, 1, 2⟩ (fun _ => 1) (fun _ => -1)
        (⟨0, fun _ => 0⟩, []) 0).1.cash = -1 := by
  norm_num [sellStep, sellTrade, applySell, bps_to_rate, min_def]

/-- C3 (amended): the SELL branch skips exactly when the desired delta
is non-negative; whenever the delta is negative a row is appended
unconditionally — the appended row is the clamped `sellTrade`, whose
quantity can be zero when nothing is held, so zero-quantity SELL rows
can appear in the ledger (and the fixed fee is still charged on them). -/
theorem sell_branch_skip_condition (c : Costs) (dt : Date) (prices delta : ℕ → ℚ)
    (acc : PortfolioState × List Trade) (a : ℕ) :
    (0 ≤ delta a → sellStep c dt prices delta acc a = acc) ∧
      (delta a < 0 → (sellStep c dt prices delta acc a).2 =
        acc.2 ++ [sellTrade c dt prices delta acc.1 a]) := by
  constructor
  · intro h
    exact sellStep_of_nonneg (not_lt.mpr h) c dt prices acc
  · intro h
    rw [sellStep_of_neg h]

/-- C3 (witness): the amended skip law at the zero-holdings state — the
negative-delta branch appends exactly the clamped trade row. -/
theorem sell_branch_skip_condition_witness :
    (sellStep ⟨0, 0, 1⟩ ⟨2024, 1, 2⟩ (fun _ => 1) (fun _ => -1)
        (⟨5, fun _ => 0⟩, []) 0).2 =
      [] ++ [sellTrade ⟨0, 0, 1⟩ ⟨2024, 1, 2⟩ (fun _ => 1) (fun _ => -1)
        ⟨5, fun _ => 0⟩ 0] :=
  (sell_branch_skip_condition ⟨0, 0, 1⟩ ⟨2024, 1, 2⟩ (fun _ => 1) (fun _ => -1)
    (⟨5, fun _ => 0⟩, []) 0).2 (by norm_num)

theorem dayStep_rows_len (c : Costs) (assets : List ℕ) (rdays : List Date)
    (acc : PortfolioState × List Trade × List EquityRow) (day : Date × (ℕ → ℚ)) :
    ((dayStep c assets rdays acc day).2.2).length = acc.2.2.length + 1 := by
  simp [dayStep]

theorem foldl_dayStep_rows_len (c : Costs) (assets : List ℕ) (rdays : List Date)
    (panel : List (Date × (ℕ → ℚ))) :
    ∀ acc : PortfolioState × List Trade × List EquityRow,
      ((panel.foldl (dayStep c assets rdays) acc).2.2).length =
        acc.2.2.length + panel.length := by
  induction panel with
  | nil => intro acc; simp
  | cons day rest ih =>
    intro acc
    rw [List.foldl_cons, ih (dayStep c assets rdays acc day), dayStep_rows_len]
    simp only [List.length_cons]
    omega

/-- C8 (amended): no configuration validation exists anywhere in the
simulator: negative fee, slippage or fixed cost and zero or negative
initial cash are all accepted, and no configuration error is ever
raised before trading.  For every such assignment with
`fee_bps ≠ -10000` the run completes and produces one equity row per
panel row (and whatever ledger the trades generate).  The excluded
point is not a checked configuration either: there the source divides
by `1 + fee_rate = 0.0` in the BUY branch and aborts with an unhandled
`ZeroDivisionError` — a crash mid-run, not a configuration error —
which the total rational division cannot reproduce, so the completion
statement is restricted to the domain where the model is faithful. -/
theorem simulator_accepts_every_configuration (c : Costs) (initial_cash : ℚ)
    (assets : List ℕ) (panel : List (Date × (ℕ → ℚ)))
    (hfee : c.fee_bps ≠ -10000) :
    ((simulate_equal_weight_monthly_rebalance c initial_cash assets panel).1).length =
      panel.length := by
  unfold simulate_equal_weight_monthly_rebalance
  rw [foldl_dayStep_rows_len]
  simp

/-- C8 (witness): the completion theorem at a negative-fee
configuration (fee_bps = -100, negative initial cash) on a one-day
panel. -/
theorem simulator_accepts_every_configuration_witness :
    ((simulate_equal_weight_monthly_rebalance ⟨-100, 0, 0⟩ (-5) [0]
      [(⟨2024, 1, 2⟩, fun _ => 1)]).1).length = 1 :=
  simulator_accepts_every_configuration ⟨-100, 0, 0⟩ (-5) [0]
    [(⟨2024, 1, 2⟩, fun _ => 1)] (by norm_num)

/-- C8 (counterexample): a configuration with negative fee_bps (-100)
runs to completion: it produces a non-empty equity curve and even
executes a BUY, refuting the claim that such configurations fail with a
configuration error before any trade executes. -/
theorem negative_fee_config_still_trades :
    ((-100 : ℚ) < 0) ∧
      (simulate_equal_weight_monthly_rebalance ⟨-100, 0, 0⟩ 1000 [0]
        [(⟨2024, 1, 2⟩, fun _ => 1)]).2 ≠ [] ∧
      (simulate_equal_weight_monthly_rebalance ⟨-100, 0, 0⟩ 1000 [0]
        [(⟨2024, 1, 2⟩, fun _ => 1)]).1 ≠ [] := by
  refine ⟨by norm_num, ?_, ?_⟩ <;>
    norm_num [simulate_equal_weight_monthly_rebalance, dayStep, rebalancePass,
      buyPass, sellPass, buyStep, sellStep, buyTrade, sellTrade, applyBuy,
      applySell, maxAffordable, rebDelta, portfolioValue, equityRow,
      first_trading_day_each_month, ftdmAux, bps_to_rate, min_def, max_def]

theorem buyhold_fold_shape (c : Costs) (dt : Date) (ic n : ℚ) (prices : ℕ → ℚ) :
    ∀ (l : List ℕ) (acc : PortfolioState × List Trade),
      ∃ seg : List Trade,
        (l.foldl (buyholdStep c dt ic n prices) acc).2 = acc.2 ++ seg ∧
        List.Sublist (seg.map Trade.asset) l ∧
        ∀ t ∈ seg, t.side = Side.BUY ∧ t.date = dt ∧ t.notional ≤ ic * (1 / n) := by
  intro l
  induction l with
  | nil => exact fun acc => ⟨[], by simp, by simp, by simp⟩
  | cons a rest ih =>
    intro acc
    rw [List.foldl_cons]
    by_cases hskip : min (ic * (1 / n)) (maxAffordable c acc.1.cash) ≤ 0
    · rw [buyholdStep_of_skip hskip]
      obtain ⟨seg, h1, h2, h3⟩ := ih acc
      exact ⟨seg, h1, h2.cons a, h3⟩
    · rw [buyholdStep_of_exec hskip]
      obtain ⟨seg, h1, h2, h3⟩ := ih
        (applyBuy acc.1 (buyTrade c dt prices a
            (min (ic * (1 / n)) (maxAffordable c acc.1.cash))),
          acc.2 ++ [buyTrade c dt prices a
            (min (ic * (1 / n)) (maxAffordable c acc.1.cash))])
      refine ⟨buyTrade c dt prices a
        (min (ic * (1 / n)) (maxAffordable c acc.1.cash)) :: seg, ?_, ?_, ?_⟩
      · rw [h1]
        simp
      · rw [List.map_cons, buyTrade_asset]
        exact h2.cons₂ a
      · intro t ht
        rcases List.mem_cons.mp ht with rfl | ht
        · exact ⟨buyTrade_side c dt prices a _, rfl, by
            rw [buyTrade_notional]
            exact min_le_left _ _⟩
        · exact h3 t ht

/-- C7 (amended): on a non-empty panel every ledger row of the
buy-and-hold simulator is a BUY dated on the panel's first date (hence
no trades on any later date), the sequence of traded assets is a
sublist of the asset list (at most one entry per asset), and each
executed notional is capped by the equal-weight target
`initial_cash * 1/N` computed from the initial cash — but an asset with
positive target can be skipped entirely once earlier purchases exhaust
the cash. -/
theorem buyhold_single_entry_ledger (c : Costs) (initial_cash : ℚ) (assets : List ℕ)
    (day0 : Date × (ℕ → ℚ)) (rest : List (Date × (ℕ → ℚ))) :
    List.Sublist (((simulate_buyhold_equal_weight c initial_cash assets
        (day0 :: rest)).2).map Trade.asset) assets ∧
      ∀ t ∈ (simulate_buyhold_equal_weight c initial_cash assets (day0 :: rest)).2,
        t.side = Side.BUY ∧ t.date = day0.1 ∧
          t.notional ≤ initial_cash * (1 / (assets.length : ℚ)) := by
  obtain ⟨seg, h1, h2, h3⟩ := buyhold_fold_shape c day0.1 initial_cash
    (assets.length : ℚ) day0.2 assets (⟨initial_cash, fun _ => 0⟩, [])
  have htr : (simulate_buyhold_equal_weight c initial_cash assets (day0 :: rest)).2 = seg := by
    unfold simulate_buyhold_equal_weight
    rw [h1]
    simp
  rw [htr]
  exact ⟨h2, h3⟩

/-- C7 (counterexample): with fee_bps = 10000 (a 100% variable fee),
initial cash 100 and two assets, asset 1 has positive initial demand
(target notional 50) but receives no BUY: the first purchase exhausts
all cash, so the ledger holds exactly one trade, for asset 0 — refuting
the claim of exactly one BUY per asset with positive demand. -/
theorem buyhold_skips_asset_with_positive_demand :
    (0 : ℚ) < 100 * (1 / 2) ∧
      ((simulate_buyhold_equal_weight ⟨10000, 0, 0⟩ 100 [0, 1]
        [(⟨2024, 1, 2⟩, fun _ => 1)]).2).map Trade.asset = [0] := by
  refine ⟨by norm_num, ?_⟩
  norm_num [simulate_buyhold_equal_weight, buyholdStep, buyTrade, applyBuy,
    maxAffordable, bps_to_rate, min_def, max_def]

theorem sellTrade_notional_le (c : Costs) (dt : Date) (prices delta : ℕ → ℚ)
    {st : PortfolioState} {a : ℕ} (hq : 0 ≤ st.qty a) :
    (sellTrade c dt prices delta st a).notional ≤ |delta a| := by
  rw [sellTrade_notional]
  set ep := prices a * (1 - bps_to_rate c.slippage_bps) with hepd
  rcases lt_trichotomy ep 0 with h0 | h0 | h0
  · have hdiv : |delta a| / ep ≤ 0 :=
      div_nonpos_iff.mpr (Or.inl ⟨abs_nonneg _, le_of_lt h0⟩)
    rw [min_eq_left (le_trans hdiv hq), div_mul_cancel₀ _ (ne_of_lt h0)]
  · rw [h0, mul_zero]
    exact abs_nonneg _
  · exact (le_div_iff₀ h0).mp (min_le_left _ _)

theorem sellStep_qty_nonneg (c : Costs) (dt : Date) (prices delta : ℕ → ℚ) (a : ℕ)
    {acc : PortfolioState × List Trade} (h : ∀ x, 0 ≤ acc.1.qty x) :
    ∀ x, 0 ≤ (sellStep c dt prices delta acc a).1.qty x := by
  by_cases hd : delta a < 0
  · rw [sellStep_of_neg hd]
    intro x
    rcases eq_or_ne x a with rfl | hx
    · have hx0 : (applySell acc.1 (sellTrade c dt prices delta acc.1 x)).qty x =
          acc.1.qty x - (sellTrade c dt prices delta acc.1 x).qty := by
        simp [applySell, sellTrade]
      rw [hx0, sellTrade_qty]
      exact sub_nonneg.mpr (min_le_right _ _)
    · rw [applySell_qty_ne _ _ (by rw [sellTrade_asset]; exact hx)]
      exact h x
  · rw [sellStep_of_nonneg hd]
    exact h

/-- C10: every trade emitted during a rebalance event executes a
notional no greater than the absolute desired delta value of its asset:
SELLs because the clamped quantity times the execution price never
exceeds `|delta|`, BUYs because the executed notional is capped by the
desired notional — the engine never overshoots a rebalance target
(holdings are assumed non-negative going in, which every run
maintains). -/
theorem rebalance_trades_never_overshoot (c : Costs) (dt : Date) (assets : List ℕ)
    (prices : ℕ → ℚ) (st : PortfolioState) (ledger : List Trade)
    (hq : ∀ x, 0 ≤ st.qty x) :
    ∀ t ∈ (rebalancePass c dt assets prices st ledger).2,
      t ∈ ledger ∨ t.notional ≤ |rebDelta assets prices st t.asset| := by
  unfold rebalancePass
  have hsell : (∀ t ∈ (sellPass c dt prices (rebDelta assets prices st) assets
        (st, ledger)).2, t ∈ ledger ∨ t.notional ≤ |rebDelta assets prices st t.asset|) ∧
      (∀ x, 0 ≤ (sellPass c dt prices (rebDelta assets prices st) assets (st, ledger)).1.qty x) := by
    apply @foldl_preserves _ _ _ _
      (fun acc : PortfolioState × List Trade =>
        (∀ t ∈ acc.2, t ∈ ledger ∨ t.notional ≤ |rebDelta assets prices st t.asset|) ∧
        ∀ x, 0 ≤ acc.1.qty x)
    · intro b a _ hb
      refine ⟨?_, sellStep_qty_nonneg c dt prices _ a hb.2⟩
      by_cases hd : rebDelta assets prices st a < 0
      · rw [sellStep_of_neg hd]
        intro t ht
        rcases List.mem_append.mp ht with ht | ht
        · exact hb.1 t ht
        · rw [List.mem_singleton] at ht
          subst ht
          refine Or.inr ?_
          rw [sellTrade_asset]
          exact sellTrade_notional_le c dt prices _ (hb.2 a)
      · rw [sellStep_of_nonneg hd]
        exact hb.1
    · exact ⟨fun t ht => Or.inl ht, hq⟩
  apply @foldl_preserves _ _ _ _
    (fun acc : PortfolioState × List Trade =>
      ∀ t ∈ acc.2, t ∈ ledger ∨ t.notional ≤ |rebDelta assets prices st t.asset|)
  · intro b a _ hb
    by_cases hd : 0 < rebDelta assets prices st a
    · by_cases hskip : min (rebDelta assets prices st a) (maxAffordable c b.1.cash) ≤ 0
      · rw [buyStep_of_pos_skip hd hskip]
        exact hb
      · rw [buyStep_of_pos_exec hd hskip]
        intro t ht
        rcases List.mem_append.mp ht with ht | ht
        · exact hb t ht
        · rw [List.mem_singleton] at ht
          subst ht
          refine Or.inr ?_
          rw [buyTrade_asset, buyTrade_notional]
          exact le_trans (min_le_left _ _) (le_abs_self _)
    · rw [buyStep_of_nonpos hd]
      exact hb
  · exact hsell.1

/-- C10 (witness): the overshoot bound applied to the all-cash
single-asset state under zero costs, at the single BUY row the pass
emits. -/
theorem rebalance_trades_never_overshoot_witness :
    (⟨⟨2024, 1, 2⟩, 0, Side.BUY, 100, 1, 100, 0, 0, 0⟩ : Trade) ∈ ([] : List Trade) ∨
      (100 : ℚ) ≤ |rebDelta [0] (fun _ => 1) ⟨100, fun _ => 0⟩ 0| :=
  rebalance_trades_never_overshoot ⟨0, 0, 0⟩ ⟨2024, 1, 2⟩ [0] (fun _ => 1)
    ⟨100, fun _ => 0⟩ [] (fun x => le_refl 0)
    ⟨⟨2024, 1, 2⟩, 0, Side.BUY, 100, 1, 100, 0, 0, 0⟩
    (by norm_num [rebalancePass, buyPass, sellPass, buyStep, sellStep, buyTrade,
      sellTrade, applyBuy, applySell, maxAffordable, rebDelta, portfolioValue,
      bps_to_rate, min_def, max_def])

theorem sellTrade_date (c : Costs) (dt : Date) (prices delta : ℕ → ℚ)
    (st : PortfolioState) (a : ℕ) : (sellTrade c dt prices delta st a).date = dt := rfl

theorem buyTrade_date (c : Costs) (dt : Date) (prices : ℕ → ℚ) (a : ℕ) (ne : ℚ) :
    (buyTrade c dt prices a ne).date = dt := rfl

theorem dateLt_trans {a b c : Date} (h1 : Date.lt a b) (h2 : Date.lt b c) :
    Date.lt a c := lt_trans h1 h2

theorem sellPass_ordered (c : Costs) (dt : Date) (prices delta : ℕ → ℚ)
    (assets : List ℕ) {acc : PortfolioState × List Trade}
    (h : acc.2.Pairwise ledgerOrd ∧
      ∀ t ∈ acc.2, Date.lt t.date dt ∨ (t.date = dt ∧ t.side = Side.SELL)) :
    (sellPass c dt prices delta assets acc).2.Pairwise ledgerOrd ∧
      ∀ t ∈ (sellPass c dt prices delta assets acc).2,
        Date.lt t.date dt ∨ (t.date = dt ∧ t.side = Side.SELL) := by
  apply @foldl_preserves _ _ _ _
    (fun acc : PortfolioState × List Trade =>
      acc.2.Pairwise ledgerOrd ∧
        ∀ t ∈ acc.2, Date.lt t.date dt ∨ (t.date = dt ∧ t.side = Side.SELL))
  · intro b a _ hb
    by_cases hd : delta a < 0
    · rw [sellStep_of_neg hd]
      constructor
      · refine List.pairwise_append.mpr ⟨hb.1, List.pairwise_singleton _ _, ?_⟩
        intro t ht u hu
        rw [List.mem_singleton] at hu
        subst hu
        rcases hb.2 t ht with h1 | h1
        · exact Or.inl (by rw [sellTrade_date]; exact h1)
        · exact Or.inr ⟨by rw [sellTrade_date]; exact h1.1, Or.inl h1.2⟩
      · intro t ht
        rcases List.mem_append.mp ht with ht | ht
        · exact hb.2 t ht
        · rw [List.mem_singleton] at ht
          subst ht
          exact Or.inr ⟨sellTrade_date c dt prices delta b.1 a,
            sellTrade_side c dt prices delta b.1 a⟩
    · rw [sellStep_of_nonneg hd]
      exact hb
  · exact h

theorem buyPass_ordered (c : Costs) (dt : Date) (prices delta : ℕ → ℚ)
    (assets : List ℕ) {acc : PortfolioState × List Trade}
    (h : acc.2.Pairwise ledgerOrd ∧ ∀ t ∈ acc.2, Date.lt t.date dt ∨ t.date = dt) :
    (buyPass c dt prices delta assets acc).2.Pairwise ledgerOrd ∧
      ∀ t ∈ (buyPass c dt prices delta assets acc).2,
        Date.lt t.date dt ∨ t.date = dt := by
  apply @foldl_preserves _ _ _ _
    (fun acc : PortfolioState × List Trade =>
      acc.2.Pairwise ledgerOrd ∧ ∀ t ∈ acc.2, Date.lt t.date dt ∨ t.date = dt)
  · intro b a _ hb
    by_cases hd : 0 < delta a
    · by_cases hskip : min (delta a) (maxAffordable c b.1.cash) ≤ 0
      · rw [buyStep_of_pos_skip hd hskip]
        exact hb
      · rw [buyStep_of_pos_exec hd hskip]
        constructor
        · refine List.pairwise_append.mpr ⟨hb.1, List.pairwise_singleton _ _, ?_⟩
          intro t ht u hu
          rw [List.mem_singleton] at hu
          subst hu
          rcases hb.2 t ht with h1 | h1
          · exact Or.inl (by rw [buyTrade_date]; exact h1)
          · exact Or.inr ⟨by rw [buyTrade_date]; exact h1, Or.inr (buyTrade_side c dt prices a _)⟩
        · intro t ht
          rcases List.mem_append.mp ht with ht | ht
          · exact hb.2 t ht
          · rw [List.mem_singleton] at ht
            subst ht
            exact Or.inr (buyTrade_date c dt prices a _)
    · rw [buyStep_of_nonpos hd]
      exact hb
  · exact h

theorem rebalancePass_ordered (c : Costs) (dt : Date) (assets : List ℕ)
    (prices : ℕ → ℚ) (st : PortfolioState) (ledger : List Trade)
    (h1 : ledger.Pairwise ledgerOrd) (h2 : ∀ t ∈ ledger, Date.lt t.date dt) :
    ((rebalancePass c dt assets prices st ledger).2).Pairwise ledgerOrd ∧
      ∀ t ∈ (rebalancePass c dt assets prices st ledger).2,
        Date.lt t.date dt ∨ t.date = dt := by
  unfold rebalancePass
  have hs := @sellPass_ordered c dt prices (rebDelta assets prices st) assets
    (st, ledger) ⟨h1, fun t ht => Or.inl (h2 t ht)⟩
  exact buyPass_ordered c dt prices (rebDelta assets prices st) assets
    ⟨hs.1, fun t ht => (hs.2 t ht).imp id And.left⟩

theorem foldl_dayStep_ordered (c : Costs) (assets : List ℕ) (rdays : List Date) :
    ∀ (panel : List (Date × (ℕ → ℚ))) (acc : PortfolioState × List Trade × List EquityRow),
      acc.2.1.Pairwise ledgerOrd →
      (∀ t ∈ acc.2.1, ∀ day ∈ panel, Date.lt t.date day.1) →
      (panel.map Prod.fst).Pairwise Date.lt →
      ((panel.foldl (dayStep c assets rdays) acc).2.1).Pairwise ledgerOrd := by
  intro panel
  induction panel with
  | nil => exact fun acc h1 _ _ => h1
  | cons day rest ih =>
    intro acc h1 h2 hsorted
    rw [List.map_cons, List.pairwise_cons] at hsorted
    have hday : ∀ d ∈ rest, Date.lt day.1 d.1 :=
      fun d hd => hsorted.1 d.1 (List.mem_map_of_mem Prod.fst hd)
    rw [List.foldl_cons]
    set acc' := dayStep c assets rdays acc day with hacc
    have hnew : acc'.2.1.Pairwise ledgerOrd ∧
        ∀ t ∈ acc'.2.1, Date.lt t.date day.1 ∨ t.date = day.1 := by
      rw [hacc]
      unfold dayStep
      by_cases hmem : day.1 ∈ rdays
      · simp only [if_pos hmem]
        exact rebalancePass_ordered c day.1 assets day.2 acc.1 acc.2.1 h1
          (fun t ht => h2 t ht day (List.mem_cons_self day rest))
      · simp only [if_neg hmem]
        refine ⟨h1, fun t ht => Or.inl (h2 t ht day (List.mem_cons_self day rest))⟩
    refine ih acc' hnew.1 ?_ hsorted.2
    intro t ht d hd
    rcases hnew.2 t ht with h3 | h3
    · exact dateLt_trans h3 (hday d hd)
    · rw [h3]
      exact hday d hd

/-- C6: if the panel's dates are strictly increasing, the trade ledger
of the periodic simulator is pairwise ordered: any earlier row has a
strictly earlier date, or the same date with no BUY appearing before a
SELL — within each rebalance date every SELL precedes every BUY, and
dates ascend across the run. -/
theorem ledger_sells_before_buys_dates_ascend (c : Costs) (initial_cash : ℚ)
    (assets : List ℕ) (panel : List (Date × (ℕ → ℚ)))
    (hsorted : (panel.map Prod.fst).Pairwise Date.lt) :
    ((simulate_equal_weight_monthly_rebalance c initial_cash assets panel).2).Pairwise
      ledgerOrd := by
  rw [simulate_trades_eq]
  exact foldl_dayStep_ordered c assets _ panel (⟨initial_cash, fun _ => 0⟩, [], [])
    List.Pairwise.nil (by simp) hsorted

/-- C6 (witness): the ledger ordering on a concrete two-day,
one-asset run with strictly increasing panel dates. -/
theorem ledger_sells_before_buys_dates_ascend_witness :
    ((simulate_equal_weight_monthly_rebalance ⟨5, 2, 0⟩ 1000 [0]
      [(⟨2024, 1, 2⟩, fun _ => 1), (⟨2024, 2, 1⟩, fun _ => 2)]).2).Pairwise
        ledgerOrd :=
  ledger_sells_before_buys_dates_ascend ⟨5, 2, 0⟩ 1000 [0]
    [(⟨2024, 1, 2⟩, fun _ => 1), (⟨2024, 2, 1⟩, fun _ => 2)] (by decide)

theorem PortfolioState.ext_of (s1 s2 : PortfolioState) (hc : s1.cash = s2.cash)
    (hq : ∀ a, s1.qty a = s2.qty a) : s1 = s2 := by
  cases s1
  cases s2
  simp only [PortfolioState.mk.injEq]
  exact ⟨hc, funext hq⟩

theorem sellStepS_of_nonneg {delta : ℕ → ℚ} {a : ℕ} (h : ¬ delta a < 0)
    (c : Costs) (dt : Date) (prices : ℕ → ℚ) (st : PortfolioState) :
    sellStepS c dt prices delta st a = st := by
  unfold sellStepS
  rw [sellStep_of_nonneg h]

theorem sellStepS_of_neg {delta : ℕ → ℚ} {a : ℕ} (h : delta a < 0)
    (c : Costs) (dt : Date) (prices : ℕ → ℚ) (st : PortfolioState) :
    sellStepS c dt prices delta st a = applySell st (sellTrade c dt prices delta st a) := by
  unfold sellStepS
  rw [sellStep_of_neg h]

theorem buyStepS_of_nonpos {delta : ℕ → ℚ} {a : ℕ} (h : ¬ 0 < delta a)
    (c : Costs) (dt : Date) (prices : ℕ → ℚ) (st : PortfolioState) :
    buyStepS c dt prices delta st a = st := by
  unfold buyStepS
  rw [buyStep_of_nonpos h]

theorem buyStepS_of_pos_skip {c : Costs} {delta : ℕ → ℚ} {a : ℕ} {st : PortfolioState}
    (h : 0 < delta a) (hskip : min (delta a) (maxAffordable c st.cash) ≤ 0)
    (dt : Date) (prices : ℕ → ℚ) :
    buyStepS c dt prices delta st a = st := by
  unfold buyStepS
  rw [@buyStep_of_pos_skip c delta a (st, []) h hskip dt prices]

theorem buyStepS_of_pos_exec {c : Costs} {delta : ℕ → ℚ} {a : ℕ} {st : PortfolioState}
    (h : 0 < delta a) (hexec : ¬ min (delta a) (maxAffordable c st.cash) ≤ 0)
    (dt : Date) (prices : ℕ → ℚ) :
    buyStepS c dt prices delta st a =
      applyBuy st (buyTrade c dt prices a (min (delta a) (maxAffordable c st.cash))) := by
  unfold buyStepS
  rw [@buyStep_of_pos_exec c delta a (st, []) h hexec dt prices]

theorem sellTrade_congr (c : Costs) (dt : Date) (prices delta : ℕ → ℚ)
    {st1 st2 : PortfolioState} {a : ℕ} (h : st1.qty a = st2.qty a) :
    sellTrade c dt prices delta st1 a = sellTrade c dt prices delta st2 a := by
  unfold sellTrade
  rw [h]

theorem sellPass_fst (c : Costs) (dt : Date) (prices delta : ℕ → ℚ) :
    ∀ (assets : List ℕ) (acc : PortfolioState × List Trade),
      (sellPass c dt prices delta assets acc).1 =
        assets.foldl (sellStepS c dt prices delta) acc.1 := by
  intro assets
  induction assets with
  | nil => intro acc; rfl
  | cons a t ih =>
    intro acc
    unfold sellPass
    rw [List.foldl_cons, List.foldl_cons]
    have h := ih (sellStep c dt prices delta acc a)
    unfold sellPass at h
    rw [h, sellStep_eq]

theorem buyPass_fst (c : Costs) (dt : Date) (prices delta : ℕ → ℚ) :
    ∀ (assets : List ℕ) (acc : PortfolioState × List Trade),
      (buyPass c dt prices delta assets acc).1 =
        assets.foldl (buyStepS c dt prices delta) acc.1 := by
  intro assets
  induction assets with
  | nil => intro acc; rfl
  | cons a t ih =>
    intro acc
    unfold buyPass
    rw [List.foldl_cons, List.foldl_cons]
    have h := ih (buyStep c dt prices delta acc a)
    unfold buyPass at h
    rw [h, buyStep_eq]

/-- Two SELL executions for distinct assets commute: each touches only
its own holding and contributes an additive cash flow that depends only
on that holding, which the other step leaves untouched. -/
theorem sellStepS_comm (c : Costs) (dt : Date) (prices delta : ℕ → ℚ) :
    ∀ (st : PortfolioState) (a b : ℕ),
      sellStepS c dt prices delta (sellStepS c dt prices delta st a) b =
        sellStepS c dt prices delta (sellStepS c dt prices delta st b) a := by
  intro st a b
  rcases eq_or_ne a b with rfl | hab
  · rfl
  · by_cases hda : delta a < 0 <;> by_cases hdb : delta b < 0
    · rw [sellStepS_of_neg hda c dt prices st, sellStepS_of_neg hdb,
        sellStepS_of_neg hdb c dt prices st, sellStepS_of_neg hda]
      have hqb : (applySell st (sellTrade c dt prices delta st a)).qty b = st.qty b :=
        applySell_qty_ne st _ (by rw [sellTrade_asset]; exact (Ne.symm hab))
      have hqa : (applySell st (sellTrade c dt prices delta st b)).qty a = st.qty a :=
        applySell_qty_ne st _ (by rw [sellTrade_asset]; exact hab)
      rw [sellTrade_congr c dt prices delta hqb, sellTrade_congr c dt prices delta hqa]
      apply PortfolioState.ext_of
      · simp only [applySell]
        ring
      · intro x
        simp only [applySell, sellTrade_asset]
        rw [Function.update_noteq (Ne.symm hab), Function.update_noteq hab]
        exact congrFun (Function.update_comm hab _ _ _) x
    · rw [sellStepS_of_nonneg hdb, sellStepS_of_nonneg hdb]
    · rw [sellStepS_of_nonneg hda, sellStepS_of_nonneg hda]
    · rw [sellStepS_of_nonneg hdb, sellStepS_of_nonneg hdb]

theorem buyCost_nonneg (c : Costs) (hfee : 0 ≤ c.fee_bps) (hfix : 0 ≤ c.fixed_per_trade)
    (dv : ℚ) : 0 ≤ buyCost c dv := by
  by_cases hd : 0 < dv
  · rw [buyCost, if_pos hd]
    have hr : 0 ≤ bps_to_rate c.fee_bps := by unfold bps_to_rate; positivity
    nlinarith
  · rw [buyCost, if_neg hd]

/-- When the cash at hand covers the full cost of every desired buy, the
BUY sweep executes each positive delta in full: final cash drops by the
total cost and each holding rises by its own full purchase, a closed
form independent of the processing order. -/
theorem buyFold_funds (c : Costs) (dt : Date) (prices delta : ℕ → ℚ)
    (hfee : 0 ≤ c.fee_bps) (hfix : 0 ≤ c.fixed_per_trade) :
    ∀ (l : List ℕ) (st : PortfolioState), l.Nodup →
      (l.map (fun a => buyCost c (delta a))).sum ≤ st.cash →
      (l.foldl (buyStepS c dt prices delta) st).cash =
          st.cash - (l.map (fun a => buyCost c (delta a))).sum ∧
      ∀ x, (l.foldl (buyStepS c dt prices delta) st).qty x =
          st.qty x + (if x ∈ l ∧ 0 < delta x then
            delta x / (prices x * (1 + bps_to_rate c.slippage_bps)) else 0) := by
  intro l
  induction l with
  | nil =>
    intro st _ _
    exact ⟨by simp, fun x => by simp⟩
  | cons a rest ih =>
    intro st hnd hfunds
    rw [List.foldl_cons]
    rw [List.map_cons, List.sum_cons] at hfunds
    have hrest0 : 0 ≤ (rest.map (fun a => buyCost c (delta a))).sum := by
      apply List.sum_nonneg
      intro q hq
      obtain ⟨y, _, rfl⟩ := List.mem_map.mp hq
      exact buyCost_nonneg c hfee hfix (delta y)
    by_cases hda : 0 < delta a
    · have hr : 0 ≤ bps_to_rate c.fee_bps := by unfold bps_to_rate; positivity
      have hr1 : 0 < 1 + bps_to_rate c.fee_bps := by linarith
      have hca : buyCost c (delta a) =
          delta a * (1 + bps_to_rate c.fee_bps) + c.fixed_per_trade := if_pos hda
      rw [hca] at hfunds
      have hXle : delta a ≤ (st.cash - c.fixed_per_trade) / (1 + bps_to_rate c.fee_bps) := by
        rw [le_div_iff₀ hr1]
        linarith
      have hmaxle : delta a ≤ maxAffordable c st.cash := by
        unfold maxAffordable
        exact le_trans hXle (le_max_right _ _)
      have hne : min (delta a) (maxAffordable c st.cash) = delta a := min_eq_left hmaxle
      have hexec : ¬ min (delta a) (maxAffordable c st.cash) ≤ 0 := by
        rw [hne]
        exact not_le.mpr hda
      rw [buyStepS_of_pos_exec hda hexec dt prices]
      set st1 := applyBuy st (buyTrade c dt prices a
        (min (delta a) (maxAffordable c st.cash))) with hst1
      have hcash1 : st1.cash = st.cash - buyCost c (delta a) := by
        rw [hst1, applyBuy_cash, buyTrade_notional, buyTrade_fee_total, hne, hca]
        ring
      have hq1a : st1.qty a =
          st.qty a + delta a / (prices a * (1 + bps_to_rate c.slippage_bps)) := by
        have h1 := applyBuy_qty_asset st (buyTrade c dt prices a
          (min (delta a) (maxAffordable c st.cash)))
        rw [buyTrade_asset] at h1
        rw [hst1, h1, buyTrade_qty, hne]
      have hq1x : ∀ x, x ≠ a → st1.qty x = st.qty x := by
        intro x hx
        rw [hst1, applyBuy_qty_ne st _ (by rw [buyTrade_asset]; exact hx)]
      have hanr : a ∉ rest := (List.nodup_cons.mp hnd).1
      have hfunds1 : (rest.map (fun a => buyCost c (delta a))).sum ≤ st1.cash := by
        rw [hcash1, hca]
        linarith
      obtain ⟨ihc, ihq⟩ := ih st1 (List.nodup_cons.mp hnd).2 hfunds1
      constructor
      · rw [ihc, hcash1, List.map_cons, List.sum_cons]
        ring
      · intro x
        rw [ihq x]
        rcases eq_or_ne x a with rfl | hx
        · have hcons : x ∈ x :: rest ∧ 0 < delta x := ⟨List.mem_cons_self x rest, hda⟩
          have hrest : ¬ (x ∈ rest ∧ 0 < delta x) := fun hc => hanr hc.1
          rw [hq1a, if_pos hcons, if_neg hrest]
          ring
        · rw [hq1x x hx]
          have hiff : (x ∈ rest ∧ 0 < delta x) ↔ (x ∈ a :: rest ∧ 0 < delta x) :=
            ⟨fun hc => ⟨List.mem_cons_of_mem a hc.1, hc.2⟩,
              fun hc => ⟨(List.mem_cons.mp hc.1).resolve_left hx, hc.2⟩⟩
          rw [if_congr hiff rfl rfl]
    · rw [buyStepS_of_nonpos hda c dt prices st]
      have hca : buyCost c (delta a) = 0 := if_neg hda
      rw [hca] at hfunds
      obtain ⟨ihc, ihq⟩ := ih st (List.nodup_cons.mp hnd).2 (by linarith)
      constructor
      · rw [ihc, List.map_cons, List.sum_cons, hca]
        ring
      · intro x
        rw [ihq x]
        rcases eq_or_ne x a with rfl | hx
        · rw [if_neg (fun hc => hda hc.2), if_neg (fun hc => hda hc.2)]
        · have hiff : (x ∈ rest ∧ 0 < delta x) ↔ (x ∈ a :: rest ∧ 0 < delta x) :=
            ⟨fun hc => ⟨List.mem_cons_of_mem a hc.1, hc.2⟩,
              fun hc => ⟨(List.mem_cons.mp hc.1).resolve_left hx, hc.2⟩⟩
          rw [if_congr hiff rfl rfl]

theorem rebDelta_perm (prices : ℕ → ℚ) (st : PortfolioState) {l₁ l₂ : List ℕ}
    (hp : l₁.Perm l₂) : rebDelta l₂ prices st = rebDelta l₁ prices st := by
  funext a
  unfold rebDelta portfolioValue
  have h1 : (l₂.map (fun a => st.qty a * prices a)).sum =
      (l₁.map (fun a => st.qty a * prices a)).sum :=
    (List.Perm.sum_eq (hp.map (fun a => st.qty a * prices a))).symm
  have h2 : (l₂.length : ℚ) = (l₁.length : ℚ) := by rw [hp.length_eq]
  rw [h1, h2]

/-- C2 (amended): on a single rebalance date, permuting the asset
processing order leaves the final cash and every final holding
unchanged provided the BUY sweep is not cash-constrained — the cash
left after the SELL sweep covers the full cost of every desired buy.
The SELL sweep itself is permutation-invariant unconditionally (its
steps commute), but a cash-constrained BUY sweep hands priority to
earlier assets and can change the final holdings. -/
theorem rebalance_state_perm_invariant_when_funded (c : Costs) (dt : Date)
    (prices : ℕ → ℚ) (st : PortfolioState) (ledger : List Trade) (l₁ l₂ : List ℕ)
    (hperm : l₁.Perm l₂) (hnd : l₁.Nodup)
    (hfee : 0 ≤ c.fee_bps) (hfix : 0 ≤ c.fixed_per_trade)
    (hfunds : (l₁.map (fun a => buyCost c (rebDelta l₁ prices st a))).sum ≤
      (sellPass c dt prices (rebDelta l₁ prices st) l₁ (st, ledger)).1.cash) :
    (rebalancePass c dt l₁ prices st ledger).1.cash =
        (rebalancePass c dt l₂ prices st ledger).1.cash ∧
      ∀ x, (rebalancePass c dt l₁ prices st ledger).1.qty x =
        (rebalancePass c dt l₂ prices st ledger).1.qty x := by
  have hdelta : rebDelta l₂ prices st = rebDelta l₁ prices st := rebDelta_perm prices st hperm
  have hS : l₂.foldl (sellStepS c dt prices (rebDelta l₁ prices st)) st =
      l₁.foldl (sellStepS c dt prices (rebDelta l₁ prices st)) st :=
    (foldl_perm_of_comm (sellStepS_comm c dt prices (rebDelta l₁ prices st)) hperm st).symm
  have hst : ((st, ledger) : PortfolioState × List Trade).1 = st := rfl
  unfold rebalancePass
  rw [hdelta, buyPass_fst, buyPass_fst, sellPass_fst, sellPass_fst, hst, hS]
  rw [sellPass_fst c dt prices (rebDelta l₁ prices st) l₁ (st, ledger), hst] at hfunds
  obtain ⟨hc1, hq1⟩ := buyFold_funds c dt prices (rebDelta l₁ prices st) hfee hfix l₁
    (l₁.foldl (sellStepS c dt prices (rebDelta l₁ prices st)) st) hnd hfunds
  have hsum2 : (l₂.map (fun a => buyCost c (rebDelta l₁ prices st a))).sum =
      (l₁.map (fun a => buyCost c (rebDelta l₁ prices st a))).sum :=
    (List.Perm.sum_eq (hperm.map (fun a => buyCost c (rebDelta l₁ prices st a)))).symm
  obtain ⟨hc2, hq2⟩ := buyFold_funds c dt prices (rebDelta l₁ prices st) hfee hfix l₂
    (l₁.foldl (sellStepS c dt prices (rebDelta l₁ prices st)) st) (hperm.nodup hnd)
    (by rw [hsum2]; exact hfunds)
  constructor
  · rw [hc1, hc2, hsum2]
  · intro x
    rw [hq1 x, hq2 x]
    by_cases hx : x ∈ l₁ ∧ 0 < rebDelta l₁ prices st x
    · rw [if_pos hx, if_pos ⟨hperm.mem_iff.mp hx.1, hx.2⟩]
    · rw [if_neg hx, if_neg (fun hc => hx ⟨hperm.mem_iff.mpr hc.1, hc.2⟩)]


/-- C2 (counterexample): at a cash-constrained rebalance (fee rate 1,
all-cash state, two equal positive deltas) the asset processed first
takes all the cash: processing order [0, 1] gives asset 0 a holding of
50 while order [1, 0] leaves it at 0 — permuting the BUY pass changes
the final holdings. -/
theorem buy_order_changes_final_holdings :
    List.Perm [0, 1] [1, 0] ∧
      (rebalancePass permCosts ⟨2024, 1, 2⟩ [0, 1] (fun _ => 1)
          ⟨100, fun _ => 0⟩ []).1.qty 0 ≠
        (rebalancePass permCosts ⟨2024, 1, 2⟩ [1, 0] (fun _ => 1)
          ⟨100, fun _ => 0⟩ []).1.qty 0 := by
  constructor
  · exact List.Perm.swap 1 0 []
  · norm_num [permCosts, rebalancePass, buyPass, sellPass, buyStep, sellStep,
      buyTrade, sellTrade, applyBuy, applySell, maxAffordable, rebDelta,
      portfolioValue, bps_to_rate, Function.update, min_def, max_def]

/-- C2 (witness): with zero fees the funds condition holds and the two
processing orders agree on final cash and on the holding of asset 0. -/
theorem rebalance_state_perm_invariant_when_funded_witness :
    (rebalancePass ⟨0, 0, 0⟩ ⟨2024, 1, 2⟩ [0, 1] (fun _ => 1)
        ⟨100, fun _ => 0⟩ []).1.cash =
      (rebalancePass ⟨0, 0, 0⟩ ⟨2024, 1, 2⟩ [1, 0] (fun _ => 1)
        ⟨100, fun _ => 0⟩ []).1.cash :=
  (rebalance_state_perm_invariant_when_funded ⟨0, 0, 0⟩ ⟨2024, 1, 2⟩ (fun _ => 1)
    ⟨100, fun _ => 0⟩ [] [0, 1] [1, 0] (List.Perm.swap 1 0 []) (by decide)
    (by norm_num) (by norm_num)
    (by norm_num [sellPass, sellStep, rebDelta, portfolioValue, buyCost,
      bps_to_rate, List.foldl])).1
